import Mathlib

/-!
Verification development for the C static analyzer in `src/parser-c/parse.c`.
The syntactic tree produced by the external grammar engine is modelled by
`CNode` (a node knows its type, its source text slice, and its children, each
optionally tagged with a field name).  The JSON values built by the analyzer
are modelled by `J`.  Every function of `parse.c` that the walk exercises is
translated one-to-one below, keeping the C names.
-/

set_option maxHeartbeats 1000000

/-! ## JSON values (jansson model) -/

inductive J where
  | s (v : String)
  | i (v : Int)
  | b (v : Bool)
  | arr (xs : List J)
  | obj (kvs : List (String × J))

abbrev JObj := List (String × J)

/-- Lookup of a key in an object (jansson `json_object_get`). -/
def jget (o : JObj) (k : String) : Option J :=
  match o with
  | [] => none
  | (k2, v) :: r => if k2 = k then some v else jget r k

/-- `json_object_get` applied to an arbitrary value: `none` on non-objects. -/
def jget_j (x : J) (k : String) : Option J :=
  match x with
  | .obj kvs => jget kvs k
  | _ => none

/-- `json_object_set_new`: replace the value of an existing key in place,
append a fresh key at the end. -/
def jset (o : JObj) (k : String) (v : J) : JObj :=
  match o with
  | [] => [(k, v)]
  | (k2, v2) :: r => if k2 = k then (k2, v) :: r else (k2, v2) :: jset r k v

/-- `json_object_set` with a possibly-NULL value: setting NULL is a no-op. -/
def jset_opt (o : JObj) (k : String) (v : Option J) : JObj :=
  match v with
  | some x => jset o k x
  | none => o

/-- `json_string_value`: NULL on non-strings. -/
def jstr_value (x : J) : Option String :=
  match x with
  | .s v => some v
  | _ => none

/-- `json_integer_value`: 0 on non-integers. -/
def jint_value (x : J) : Int :=
  match x with
  | .i v => v
  | _ => 0

/-! ## Character and string utilities (`substr`, `str_trim`, `parse_pos_int`) -/

/-- C `isspace` in the default locale. -/
def isspace (c : Char) : Bool :=
  c = ' ' || c = '\t' || c = '\n' || c = '\x0b' || c = '\x0c' || c = '\r'

/-- `str_trim`: strip ASCII whitespace on both ends. -/
def str_trim (s : List Char) : List Char :=
  ((s.dropWhile isspace).reverse.dropWhile isspace).reverse

/-- Strip one trailing semicolon, as `analyze_expr_wrt_param` does. -/
def strip_semi (s : List Char) : List Char :=
  match s.getLast? with
  | some ';' => s.dropLast
  | _ => s

/-- `strchr` followed by a step past the found character: the suffix after the
first occurrence of `c`. -/
def after_char (c : Char) : List Char → Option (List Char)
  | [] => none
  | x :: r => if x = c then some r else after_char c r

/-- `strstr(p, ">>")` followed by a step past the pattern: the suffix after
the first occurrence of `>>`. -/
def after_shr : List Char → Option (List Char)
  | [] => none
  | x :: r => if [ '>', '>' ].isPrefixOf (x :: r) then some r.tail else after_shr r

/-- `strstr(p, pat) != NULL`: `pat` occurs as a substring. -/
def has_sub (pat : List Char) : List Char → Bool
  | [] => pat.isEmpty
  | x :: r => pat.isPrefixOf (x :: r) || has_sub pat r

/-- Numeric value of a run of decimal digits. -/
def dec_digits_val (ds : List Char) : Nat :=
  ds.foldl (fun a c => a * 10 + (c.toNat - 48)) 0

/-- Wrap-around conversion of a `long` value to `int` (two's complement). -/
def wrap32 (v : Int) : Int := (v + 2 ^ 31) % 2 ^ 32 - 2 ^ 31

/-- Clamping behaviour of `strtol` on a 64-bit `long`. -/
def clamp_long (v : Int) : Int :=
  if v > 2 ^ 63 - 1 then 2 ^ 63 - 1 else if v < -(2 ^ 63) then -(2 ^ 63) else v

/-- `parse_pos_int`: skip whitespace, run `strtol` base 10, succeed iff at
least one digit was consumed and the `long` value is strictly positive; the
output is the value cast to `int`. -/
def parse_pos_int (s : List Char) : Option Int :=
  let s1 := s.dropWhile isspace
  match s1 with
  | [] => none
  | _ =>
    let sgn_body : Bool × List Char :=
      match s1 with
      | '-' :: r => (true, r)
      | '+' :: r => (false, r)
      | _ => (false, s1)
    let ds := sgn_body.2.takeWhile Char.isDigit
    if ds.isEmpty then none
    else
      let v0 : Int := (dec_digits_val ds : Int)
      let v : Int := clamp_long (if sgn_body.1 then -v0 else v0)
      if v ≤ 0 then none else some (wrap32 v)

/-- `pow2_int`: `1 << k` for `0 ≤ k < 30`, else 1. -/
def pow2_int (k : Int) : Int :=
  if 0 ≤ k ∧ k < 30 then 2 ^ k.toNat else 1

/-! ## Expression classifier (`analyze_expr_wrt_param`) -/

/-- The four out-parameters of `analyze_expr_wrt_param`. -/
structure cls_result where
  has_div : Bool := false
  div_b : Int := 0
  has_dec : Bool := false
  dec_c : Int := 0
deriving DecidableEq

def cls0 : cls_result := {}

/-- The in-place minimum update `if (*p==0 || v<*p) *p = v`. -/
def min_update (old v : Int) : Int :=
  if old = 0 ∨ v < old then v else old

/-- The `n - c` arm of the classifier. -/
def cls_minus_branch (p : List Char) (r : cls_result) : cls_result :=
  match after_char '-' p with
  | some rest =>
    match parse_pos_int rest with
    | some c => if c > 0 then { r with has_dec := true, dec_c := min_update r.dec_c c } else r
    | none => r
  | none => r

/-- The `n >> k` arm of the classifier, falling through to the minus arm. -/
def cls_shr_branch (p : List Char) (r : cls_result) : cls_result :=
  match after_shr p with
  | some rest =>
    match parse_pos_int rest with
    | some k =>
      if k > 0 then { r with has_div := true, div_b := min_update r.div_b (pow2_int k) }
      else cls_minus_branch p r
    | none => cls_minus_branch p r
  | none => cls_minus_branch p r

/-- `analyze_expr_wrt_param`: trim, strip a trailing semicolon, require the
parameter to occur, then try `/`, `>>`, `-` in that order (first success
returns). -/
def analyze_expr_wrt_param (expr param : List Char) (r : cls_result) : cls_result :=
  let p := strip_semi (str_trim expr)
  if ¬ has_sub param p then r
  else
    match after_char '/' p with
    | some rest =>
      match parse_pos_int rest with
      | some k =>
        if k > 1 then { r with has_div := true, div_b := min_update r.div_b k }
        else cls_shr_branch p r
      | none => cls_shr_branch p r
    | none => cls_shr_branch p r

/-- Does the `/` arm of the classifier fire on preprocessed text `p`? -/
def div_rule_fires (p : List Char) : Bool :=
  match after_char '/' p with
  | some rest =>
    match parse_pos_int rest with
    | some k => k > 1
    | none => false
  | none => false

/-! ## Call-argument splitting (`split_args`) -/

/-- Split on commas keeping all (possibly empty) segments. -/
def split_commas (acc : List Char) : List Char → List (List Char)
  | [] => [acc.reverse]
  | ',' :: r => acc.reverse :: split_commas [] r
  | c :: r => split_commas (c :: acc) r

/-- `split_args`: strip one outer pair of parentheses when both are present,
then `strtok` on commas (dropping empty tokens) and trim each token. -/
def split_args (s : List Char) : List (List Char) :=
  let s1 :=
    match s with
    | '(' :: rest =>
      if rest ≠ [] ∧ rest.getLast? = some ')' then rest.dropLast else '(' :: rest
    | _ => s
  ((split_commas [] s1).filter (fun t => ¬ t.isEmpty)).map str_trim

/-- The `[A-Za-z0-9_]*` check applied to a candidate alias identifier. -/
def is_simple_ident (s : List Char) : Bool :=
  s.all (fun c => c.isAlphanum || c = '_')

/-! ## Alias table -/

inductive AliasKind where
  | al_none
  | al_divide
  | al_shr
  | al_dec
deriving DecidableEq

structure AliasEntry where
  name : String
  kind : AliasKind
  k : Int
deriving DecidableEq

/-- `alias_find`: first entry with the given name. -/
def alias_find (T : List AliasEntry) (nm : String) : Option AliasEntry :=
  match T with
  | [] => none
  | e :: r => if e.name = nm then some e else alias_find r nm

/-- `alias_get_or_add` followed by an in-place mutation `f` of the entry. -/
def alias_get_or_add_then (T : List AliasEntry) (nm : String) (f : AliasEntry → AliasEntry) :
    List AliasEntry :=
  match T with
  | [] => [f { name := nm, kind := .al_none, k := 0 }]
  | e :: r => if e.name = nm then f e :: r else e :: alias_get_or_add_then r nm f

/-! ## Syntax tree model -/

inductive CNode where
  | node (ty : String) (text : String) (children : List (Option String × CNode))

def CNode.ty : CNode → String
  | .node t _ _ => t

def CNode.text : CNode → String
  | .node _ tx _ => tx

def CNode.children : CNode → List (Option String × CNode)
  | .node _ _ ch => ch

/-- `ts_node_child_by_field_name` over a child list. -/
def child_by_field_list (f : String) : List (Option String × CNode) → Option CNode
  | [] => none
  | (fld, c) :: r => if fld = some f then some c else child_by_field_list f r

def child_by_field (n : CNode) (f : String) : Option CNode :=
  child_by_field_list f n.children

mutual
def find_first_descendant_of_type (ty : String) : CNode → Option CNode
  | .node t tx ch =>
    if t = ty then some (.node t tx ch) else find_first_descendant_list ty ch
def find_first_descendant_list (ty : String) : List (Option String × CNode) → Option CNode
  | [] => none
  | (_, c) :: r =>
    match find_first_descendant_of_type ty c with
    | some x => some x
    | none => find_first_descendant_list ty r
end

/-- `extract_call_name`: text of the `function` field. -/
def extract_call_name (call_node : CNode) : Option String :=
  match child_by_field call_node "function" with
  | some fn => some fn.text
  | none => none

/-- `extract_call_args_text`: raw text of the `arguments` field. -/
def extract_call_args_text (call_node : CNode) : Option String :=
  match child_by_field call_node "arguments" with
  | some args => some args.text
  | none => none

/-- `get_parameter_list`: the first `parameter_list` under the declarator. -/
def get_parameter_list (func_def : CNode) : Option CNode :=
  match child_by_field func_def "declarator" with
  | some decl => find_first_descendant_of_type "parameter_list" decl
  | none => none

/-- The `parameter_declaration` children, in order (`parameter_count` and
`parameter_decl_at` both range over this list). -/
def param_decls (plist : Option CNode) : List CNode :=
  match plist with
  | some p => (p.children.map Prod.snd).filter (fun c => c.ty = "parameter_declaration")
  | none => []

/-- `param_is_pointer`: a `pointer_declarator` descendant, or a `*` in the
raw text. -/
def param_is_pointer (pd : CNode) : Bool :=
  match find_first_descendant_of_type "pointer_declarator" pd with
  | some _ => true
  | none => has_sub [ '*' ] pd.text.toList

/-- `extract_function_name_from_definition`. -/
def extract_function_name_from_definition (func_def : CNode) : Option String :=
  match child_by_field func_def "declarator" with
  | some decl =>
    match find_first_descendant_of_type "identifier" decl with
    | some id => some id.text
    | none => none
  | none => none

/-! ## Walker state -/

/-- The per-walk state of `WalkState` that is not one of the append-only
output arrays (those are modelled by `Out`). -/
structure Frame where
  current_fn : Option String
  loop_depth : Int
  max_loop_depth : Int
  loop_count : Int
  saw_recursive_call : Bool
  current_fn_calls : List String
  size_param_name : Option String
  size_param_index : Int
  aliases : List AliasEntry
  self_calls_a : Int
  has_divide_b : Bool
  divide_b : Int
  b_ambiguous : Bool
  has_decrease : Bool
  decrease_c : Int
deriving DecidableEq

/-- `WalkState S = {0}` in `parse_code` (note `size_param_index = 0`). -/
def frame0 : Frame :=
  { current_fn := none, loop_depth := 0, max_loop_depth := 0, loop_count := 0,
    saw_recursive_call := false, current_fn_calls := [], size_param_name := none,
    size_param_index := 0, aliases := [], self_calls_a := 0, has_divide_b := false,
    divide_b := 0, b_ambiguous := false, has_decrease := false, decrease_c := 0 }

/-- The four append-only output arrays of the walk. -/
structure Out where
  loops : List J
  calls : List String
  functions : List J
  recs : List J

def Out.empty : Out := { loops := [], calls := [], functions := [], recs := [] }

def Out.app (a b : Out) : Out :=
  { loops := a.loops ++ b.loops, calls := a.calls ++ b.calls,
    functions := a.functions ++ b.functions, recs := a.recs ++ b.recs }

/-- `enter_function`: every frame field is reset. -/
def enter_function (name : Option String) : Frame :=
  { current_fn := name, loop_depth := 0, max_loop_depth := 0, loop_count := 0,
    saw_recursive_call := false, current_fn_calls := [], size_param_name := none,
    size_param_index := -1, aliases := [], self_calls_a := 0, has_divide_b := false,
    divide_b := 0, b_ambiguous := false, has_decrease := false, decrease_c := 0 }

/-- `consider_divide_b`. -/
def consider_divide_b (fr : Frame) (b : Int) : Frame :=
  if b ≤ 1 then fr
  else if ¬ fr.has_divide_b then { fr with has_divide_b := true, divide_b := b }
  else if fr.divide_b ≠ b then
    { fr with divide_b := if b < fr.divide_b then b else fr.divide_b, b_ambiguous := true }
  else fr

/-- The scan of `choose_size_param` over the `parameter_declaration` nodes:
`Sum.inl` is the early return on a parameter named `n`, `Sum.inr` carries the
rightmost non-pointer candidate. -/
def scan_params : List (Nat × CNode) → Option Nat → (Nat × String) ⊕ Option Nat
  | [], cand => Sum.inr cand
  | (i, pd) :: rest, cand =>
    match find_first_descendant_of_type "identifier" pd with
    | none => scan_params rest cand
    | some id =>
      if id.text = "n" then Sum.inl (i, id.text)
      else scan_params rest (if param_is_pointer pd then cand else some i)

/-- The `(index, name)` pair `choose_size_param` selects, if any. -/
def choose_size_param_sel (func_def : CNode) : Option (Int × String) :=
  let ps := param_decls (get_parameter_list func_def)
  match scan_params ps.enum none with
  | Sum.inl (i, nm) => some ((i : Int), nm)
  | Sum.inr (some c) =>
    match ps.get? c with
    | some pd =>
      match find_first_descendant_of_type "identifier" pd with
      | some id => some ((c : Int), id.text)
      | none => none
    | none => none
  | Sum.inr none => none

/-- `choose_size_param`: writes the selection into the frame, or leaves it
untouched. -/
def choose_size_param (func_def : CNode) (fr : Frame) : Frame :=
  match choose_size_param_sel func_def with
  | some (i, nm) => { fr with size_param_index := i, size_param_name := some nm }
  | none => fr

/-- The `f(n)` expression derived from the loop-nesting depth. -/
def f_expr_of_depth (d : Int) : String :=
  if d = 1 then "n" else if d ≥ 2 then "n^" ++ toString d else "1"

/-- The `rec` object built inside `leave_function` for a recursive function. -/
def mk_rec_object (fr : Frame) : JObj :=
  let rec0 : JObj := [("a", J.i fr.self_calls_a), ("f", J.s (f_expr_of_depth fr.max_loop_depth))]
  let rec1 :=
    if fr.has_decrease then jset (jset rec0 "model" (J.s "decrease")) "c" (J.i fr.decrease_c)
    else rec0
  if fr.has_divide_b ∧ fr.divide_b > 1 then
    let t1 := jset (jset rec1 "b" (J.i fr.divide_b)) "model" (J.s "divide")
    if fr.b_ambiguous then jset t1 "b_ambiguous" (J.b true) else t1
  else rec1

/-- The entry pushed onto the top-level `recurrences` array. -/
def mk_top_entry (nm : String) (fr : Frame) : JObj :=
  let rc := mk_rec_object fr
  let e1 := jset_opt [("function", J.s nm)] "a" (jget rc "a")
  let e2 := jset_opt e1 "f" (jget rc "f")
  let e3 := jset_opt e2 "b" (jget rc "b")
  let e4 := jset_opt e3 "model" (jget rc "model")
  let e5 := jset_opt e4 "c" (jget rc "c")
  if fr.b_ambiguous then jset e5 "b_ambiguous" (J.b true) else e5

/-- The `FunctionRecord` object built inside `leave_function`. -/
def mk_fn_obj (nm : String) (fr : Frame) : JObj :=
  let o0 : JObj :=
    [("name", J.s nm), ("is_recursive", J.b fr.saw_recursive_call),
     ("calls", J.arr (fr.current_fn_calls.map J.s)), ("loopCount", J.i fr.loop_count),
     ("maxLoopDepth", J.i fr.max_loop_depth)]
  let o1 :=
    match fr.size_param_name with
    | some p => jset o0 "sizeParam" (J.s p)
    | none => o0
  let o2 := if fr.size_param_index ≥ 0 then jset o1 "sizeParamIndex" (J.i fr.size_param_index) else o1
  if fr.saw_recursive_call then jset o2 "recurrence" (J.obj (mk_rec_object fr)) else o2

/-- `leave_function`: no record when the name was not recovered; otherwise a
`FunctionRecord` and, for a recursive function, a top-level entry.  The frame
is cleaned up. -/
def leave_function (fr : Frame) : Frame × Out :=
  match fr.current_fn with
  | none => (fr, Out.empty)
  | some nm =>
    let fr2 :=
      { fr with
        current_fn := none
        size_param_name := none
        current_fn_calls := []
        aliases := [] }
    (fr2, { loops := [], calls := [], functions := [J.obj (mk_fn_obj nm fr)],
            recs := if fr.saw_recursive_call then [J.obj (mk_top_entry nm fr)] else [] })

/-! ## Node analysis -/

/-- The mutation performed on the table entry in `maybe_record_alias`. -/
def alias_apply (r : cls_result) (e : AliasEntry) : AliasEntry :=
  if r.has_div ∧ r.div_b > 1 then { e with kind := .al_divide, k := r.div_b }
  else if r.has_dec ∧ r.dec_c > 0 then { e with kind := .al_dec, k := r.dec_c }
  else e

/-- `maybe_record_alias`. -/
def maybe_record_alias (n : CNode) (size_param : String) (T : List AliasEntry) :
    List AliasEntry :=
  let lhs_rhs : Option (String × String) :=
    if n.ty = "assignment_expression" then
      match child_by_field n "left", child_by_field n "right" with
      | some L, some R =>
        match find_first_descendant_of_type "identifier" L with
        | some id => some (id.text, R.text)
        | none => none
      | _, _ => none
    else if n.ty = "init_declarator" then
      match find_first_descendant_of_type "identifier" n, child_by_field n "value" with
      | some id, some init => some (id.text, init.text)
      | _, _ => none
    else none
  match lhs_rhs with
  | none => T
  | some (nm, rhs) =>
    let r := analyze_expr_wrt_param (str_trim rhs.toList) size_param.toList cls0
    if r.has_div || r.has_dec then alias_get_or_add_then T nm (alias_apply r) else T

/-- The alias-table arm of `analyze_self_call`: the argument is a simple
identifier looked up in the table. -/
def asc_alias_lookup (arg : List Char) (fr : Frame) : Frame :=
  let id := arg.dropWhile isspace
  if is_simple_ident id then
    match alias_find fr.aliases (String.mk id) with
    | some E =>
      if E.kind = .al_divide ∧ E.k > 1 then consider_divide_b fr E.k
      else if E.kind = .al_shr ∧ E.k > 0 then consider_divide_b fr (pow2_int E.k)
      else if E.kind = .al_dec ∧ E.k > 0 then
        { fr with
          has_decrease := true
          decrease_c := if fr.decrease_c = 0 ∨ E.k < fr.decrease_c then E.k
                        else fr.decrease_c }
      else fr
    | none => fr
  else fr

/-- The argument classification of `analyze_self_call`: direct forms first,
then the alias table when neither fired. -/
def asc_classify (arg : List Char) (pname : String) (fr : Frame) : Frame :=
  let r := analyze_expr_wrt_param arg pname.toList cls0
  let fr := if r.has_div ∧ r.div_b > 1 then consider_divide_b fr r.div_b else fr
  let fr :=
    if r.has_dec ∧ r.dec_c > 0 then
      { fr with
        has_decrease := true
        decrease_c := if fr.decrease_c = 0 ∨ r.dec_c < fr.decrease_c then r.dec_c
                      else fr.decrease_c }
    else fr
  if ¬ r.has_div ∧ ¬ r.has_dec then asc_alias_lookup arg fr else fr

/-- `analyze_self_call`: unconditionally bump `self_calls_a`, then try to
classify the argument in the size-parameter position, directly or through the
alias table. -/
def analyze_self_call (call_node : CNode) (fr : Frame) : Frame :=
  let fr := { fr with self_calls_a := fr.self_calls_a + 1 }
  if fr.size_param_index < 0 then fr
  else
    match fr.size_param_name with
    | none => fr
    | some pname =>
      match extract_call_args_text call_node with
      | none => fr
      | some args_txt =>
        let argv := split_args args_txt.toList
        if (argv.length : Int) > fr.size_param_index then
          match argv.get? fr.size_param_index.toNat with
          | none => fr
          | some arg => asc_classify arg pname fr
        else fr

/-! ## The tree walk (`traverse_collect`) -/

/-- The alias-recording dispatch of the walker, for `assignment_expression`
and `init_declarator` nodes. -/
def alias_step (n : CNode) (fr : Frame) : Frame :=
  if n.ty = "assignment_expression" ∨ n.ty = "init_declarator" then
    match fr.current_fn, fr.size_param_name with
    | some _, some pname => { fr with aliases := maybe_record_alias n pname fr.aliases }
    | _, _ => fr
  else fr

/-- The loop bookkeeping applied to the frame when a `for`/`while` node is
entered (performed only inside a function). -/
def loop_enter (fr : Frame) : Frame :=
  match fr.current_fn with
  | some _ =>
    { fr with
      loop_count := fr.loop_count + 1
      max_loop_depth := if fr.loop_depth + 1 > fr.max_loop_depth then fr.loop_depth + 1
                        else fr.max_loop_depth }
  | none => fr

/-- The call-expression dispatch of the walker. -/
def call_step (n : CNode) (fr : Frame) : Frame × Out :=
  if n.ty = "call_expression" then
    match extract_call_name n with
    | some nm =>
      if nm ≠ "" then
        let fr3 :=
          match fr.current_fn with
          | some cur =>
            let fr4 := { fr with current_fn_calls := fr.current_fn_calls ++ [nm] }
            if nm = cur then analyze_self_call n { fr4 with saw_recursive_call := true }
            else fr4
          | none => fr
        (fr3, { loops := [], calls := [nm], functions := [], recs := [] })
      else (fr, Out.empty)
    | none => (fr, Out.empty)
  else (fr, Out.empty)

mutual
def traverse_collect : CNode → Frame → Frame × Out
  | .node t tx ch, fr =>
    if t = "function_definition" then
      let fn_name := extract_function_name_from_definition (.node t tx ch)
      let fr2 := choose_size_param (.node t tx ch) (enter_function fn_name)
      match traverse_list ch fr2 with
      | (fr3, out1) =>
        match leave_function fr3 with
        | (fr4, out2) => (fr4, out1.app out2)
    else if t = "for_statement" ∨ t = "while_statement" then
      let kind := if t = "for_statement" then "for" else "while"
      let loopObj := J.obj [("kind", J.s kind), ("bound", J.s "n"), ("depth", J.i (fr.loop_depth + 1))]
      match traverse_list ch { loop_enter fr with loop_depth := (loop_enter fr).loop_depth + 1 } with
      | (fr3, out1) =>
        ({ fr3 with loop_depth := fr3.loop_depth - 1 },
         Out.app { loops := [loopObj], calls := [], functions := [], recs := [] } out1)
    else
      match call_step (.node t tx ch) (alias_step (.node t tx ch) fr) with
      | (fr2, out0) =>
        match traverse_list ch fr2 with
        | (fr5, out1) => (fr5, out0.app out1)
def traverse_list : List (Option String × CNode) → Frame → Frame × Out
  | [], fr => (fr, Out.empty)
  | (_, c) :: r, fr =>
    match traverse_collect c fr with
    | (fr1, o1) =>
      match traverse_list r fr1 with
      | (fr2, o2) => (fr2, o1.app o2)
end

/-! ## `parse_code` -/

structure parse_result where
  ast : JObj
  summary : JObj

/-- The convenience `summary.recurrence` emission at the end of `parse_code`. -/
def conv_field (summary : JObj) (recs : List J) : JObj :=
  match recs with
  | [only] =>
    match jget_j only "model", jget_j only "b" with
    | some m, some bv =>
      if jstr_value m = some "divide" ∧ jint_value bv > 1 then
        let r1 := jset_opt [] "a" (jget_j only "a")
        let r2 := jset_opt r1 "b" (jget_j only "b")
        let r3 := jset_opt r2 "f" (jget_j only "f")
        jset summary "recurrence" (J.obj r3)
      else summary
    | _, _ => summary
  | _ => summary

/-- `parse_code`.  The grammar engine is external: the tree it would produce
for `code` is passed in as `root` and is consulted only on the `"c"` path. -/
def parse_code (language : Option String) (code : String) (root : CNode) : parse_result :=
  let ast0 : JObj :=
    [("language", J.s (match language with | some l => l | none => "unknown")),
     ("rootType", J.s "unknown")]
  let empty_summary : JObj :=
    [("loops", J.arr []), ("calls", J.arr []), ("functions", J.arr []), ("recurrences", J.arr [])]
  match language with
  | none => { ast := ast0, summary := empty_summary }
  | some lang =>
    if code = "" then { ast := ast0, summary := empty_summary }
    else
      match (if lang = "c" then
               ((traverse_collect root frame0).2, jset ast0 "rootType" (J.s root.ty))
             else (Out.empty, ast0) : Out × JObj) with
      | (res, ast1) =>
        let summary0 : JObj :=
          [("loops", J.arr res.loops), ("calls", J.arr (res.calls.map J.s)),
           ("functions", J.arr res.functions), ("recurrences", J.arr res.recs)]
        { ast := ast1, summary := conv_field summary0 res.recs }

/-! ## Output accessors -/

def summary_functions (r : parse_result) : List J :=
  match jget r.summary "functions" with
  | some (J.arr l) => l
  | _ => []

def summary_calls (r : parse_result) : List String :=
  match jget r.summary "calls" with
  | some (J.arr l) => l.filterMap jstr_value
  | _ => []

def summary_recs (r : parse_result) : List J :=
  match jget r.summary "recurrences" with
  | some (J.arr l) => l
  | _ => []

/-- The `calls` array of one `FunctionRecord`, as strings. -/
def record_calls (F : J) : List String :=
  match jget_j F "calls" with
  | some (J.arr l) => l.filterMap jstr_value
  | _ => []

/-! ## Derived tree measures used by the theorems -/

mutual
def has_fn_def : CNode → Bool
  | .node t _ ch => t = "function_definition" || has_fn_def_list ch
def has_fn_def_list : List (Option String × CNode) → Bool
  | [] => false
  | (_, c) :: r => has_fn_def c || has_fn_def_list r
end

mutual
def count_fn_defs : CNode → Nat
  | .node t _ ch => (if t = "function_definition" then 1 else 0) + count_fn_defs_list ch
def count_fn_defs_list : List (Option String × CNode) → Nat
  | [] => 0
  | (_, c) :: r => count_fn_defs c + count_fn_defs_list r
end

/- The function-definition nodes that actually produce a `FunctionRecord`:
name recovered and no nested function definition (a nested definition resets
`current_fn`, so the enclosing frame is dropped on exit). -/
mutual
def good_defs : CNode → List (String × CNode)
  | .node t tx ch =>
    if t = "function_definition" then
      good_defs_list ch ++
        (match extract_function_name_from_definition (.node t tx ch) with
         | some nm => if has_fn_def_list ch then [] else [(nm, .node t tx ch)]
         | none => [])
    else good_defs_list ch
def good_defs_list : List (Option String × CNode) → List (String × CNode)
  | [] => []
  | (_, c) :: r => good_defs c ++ good_defs_list r
end

/- Pre-order list of the non-empty callee names of all call expressions. -/
mutual
def all_calls : CNode → List String
  | .node t tx ch =>
    (if t = "call_expression" then
       match extract_call_name (.node t tx ch) with
       | some nm => if nm ≠ "" then [nm] else []
       | none => []
     else []) ++ all_calls_list ch
def all_calls_list : List (Option String × CNode) → List String
  | [] => []
  | (_, c) :: r => all_calls c ++ all_calls_list r
end

/- Number of call sites whose extracted callee text equals `nm` (the count
used by the specification). -/
mutual
def self_site_count (nm : String) : CNode → Nat
  | .node t tx ch =>
    (if t = "call_expression" ∧ extract_call_name (.node t tx ch) = some nm then 1 else 0) +
      self_site_count_list nm ch
def self_site_count_list (nm : String) : List (Option String × CNode) → Nat
  | [] => 0
  | (_, c) :: r => self_site_count nm c + self_site_count_list nm r
end

/- Number of call sites the walker treats as self-calls of `nm`: callee text
extracted, non-empty and equal to `nm`. -/
mutual
def self_site_count_ne (nm : String) : CNode → Nat
  | .node t tx ch =>
    (if t = "call_expression" ∧ extract_call_name (.node t tx ch) = some nm ∧ nm ≠ "" then 1
     else 0) + self_site_count_ne_list nm ch
def self_site_count_ne_list (nm : String) : List (Option String × CNode) → Nat
  | [] => 0
  | (_, c) :: r => self_site_count_ne nm c + self_site_count_ne_list nm r
end

/-- A function definition that produces a record. -/
def is_good_def (n : CNode) : Bool :=
  n.ty = "function_definition" && (extract_function_name_from_definition n).isSome &&
    !(has_fn_def_list n.children)

/- Calls that are not inside any record-producing function definition. -/
mutual
def stray_calls : CNode → List String
  | .node t tx ch =>
    if is_good_def (.node t tx ch) then []
    else
      (if t = "call_expression" then
         match extract_call_name (.node t tx ch) with
         | some nm => if nm ≠ "" then [nm] else []
         | none => []
       else []) ++ stray_calls_list ch
def stray_calls_list : List (Option String × CNode) → List String
  | [] => []
  | (_, c) :: r => stray_calls c ++ stray_calls_list r
end

/-- The frame at the moment `leave_function` consumes the function definition
`D` whose recovered name is `nm`. -/
def final_frame (nm : String) (D : CNode) : Frame :=
  (traverse_list D.children (choose_size_param D (enter_function (some nm)))).1

/-- The `FunctionRecord` produced for a record-producing definition. -/
def record_of (p : String × CNode) : J :=
  J.obj (mk_fn_obj p.1 (final_frame p.1 p.2))

/-- Entries of `summary.recurrences` satisfying the divide condition of the
convenience-field test. -/
def divide_entry (e : J) : Bool :=
  match jget_j e "model", jget_j e "b" with
  | some m, some bv => (decide (jstr_value m = some "divide")) && (decide (jint_value bv > 1))
  | _, _ => false

/-- No alias-table entry has the shift kind. -/
def no_shr (T : List AliasEntry) : Bool :=
  T.all (fun e => e.kind ≠ AliasKind.al_shr)

/-! ## Concrete trees used by witnesses and counterexamples -/

def mk_id (s : String) : CNode := .node "identifier" s []

def mk_call (fname args : String) : CNode :=
  .node "call_expression" (fname ++ args)
    [(some "function", mk_id fname), (some "arguments", .node "argument_list" args [])]

def mk_params1 (p : String) : CNode :=
  .node "parameter_list" ("(int " ++ p ++ ")")
    [(none, .node "parameter_declaration" ("int " ++ p)
        [(none, .node "primitive_type" "int" []), (none, mk_id p)])]

def mk_fndef (f p : String) (body : List CNode) : CNode :=
  .node "function_definition" ""
    [(none, .node "primitive_type" "void" []),
     (some "declarator", .node "function_declarator" (f ++ "(int " ++ p ++ ")")
        [(some "declarator", mk_id f), (some "parameters", mk_params1 p)]),
     (some "body", .node "compound_statement" "" (body.map (fun c => ((none : Option String), c))))]

def call_f : CNode := mk_call "f" "(n/2)"
def call_g : CNode := mk_call "g" "(n-1)"
def call_h1 : CNode := mk_call "h" "(n/2)"
def call_h2 : CNode := mk_call "h" "(n-1)"

def fn_f : CNode := mk_fndef "f" "n" [call_f]
def fn_g : CNode := mk_fndef "g" "n" [call_g]
def fn_h : CNode := mk_fndef "h" "n" [call_h1, call_h2]

/-- Two recursive functions: one divide, one decrease. -/
def c1_tree : CNode := .node "translation_unit" "" [(none, fn_f), (none, fn_g)]

/-- One function observing both a divide and a decrease self-call. -/
def c2_tree : CNode := .node "translation_unit" "" [(none, fn_h)]

/-- A call expression outside every function definition. -/
def c7_tree : CNode :=
  .node "translation_unit" ""
    [(none, .node "declaration" "int x = f();"
        [(none, .node "primitive_type" "int" []),
         (none, .node "init_declarator" "x = f()"
            [(none, mk_id "x"), (some "value", mk_call "f" "()")])])]

/-- A function definition whose name is not recoverable. -/
def unnamed_def : CNode :=
  .node "function_definition" ""
    [(some "declarator", .node "function_declarator" "()"
        [(some "parameters", .node "parameter_list" "()" [])]),
     (some "body", .node "compound_statement" "" [])]

/-- A named function containing a function definition whose name is not
recoverable. -/
def c9_tree : CNode :=
  .node "translation_unit" "" [(none, mk_fndef "f" "n" [unnamed_def])]

/-- An initializer binding `x` to a shift of the size parameter. -/
def c6_node : CNode :=
  .node "init_declarator" "x = n>>1"
    [(none, mk_id "x"),
     (some "value", .node "binary_expression" "n>>1"
        [(none, mk_id "n"), (none, .node "number_literal" "1" [])])]

/-- A single divide-recursive function (positive convenience-field case). -/
def conv_tree : CNode := .node "translation_unit" "" [(none, fn_f)]


/-! ## Step equations for the walker

These restate the branches of `traverse_collect` with the recursive results
supplied as hypotheses, so that a concrete walk can be assembled node by node
without deep kernel reduction. -/

theorem out_app_empty_left (o : Out) : Out.empty.app o = o := by
  cases o; simp [Out.app, Out.empty]

theorem out_app_empty_right (o : Out) : o.app Out.empty = o := by
  cases o; simp [Out.app, Out.empty]

theorem tl_nil (fr : Frame) : traverse_list [] fr = (fr, Out.empty) := by
  rw [traverse_list]

theorem tl_cons (f : Option String) (c : CNode) (r : List (Option String × CNode))
    (fr fr1 fr2 : Frame) (o1 o2 : Out)
    (h1 : traverse_collect c fr = (fr1, o1)) (h2 : traverse_list r fr1 = (fr2, o2)) :
    traverse_list ((f, c) :: r) fr = (fr2, o1.app o2) := by
  rw [traverse_list, h1]
  simp only []
  rw [h2]

theorem tc_plain (t tx : String) (ch : List (Option String × CNode)) (fr fr1 : Frame) (o1 : Out)
    (h1 : t ≠ "function_definition") (h2 : t ≠ "for_statement") (h3 : t ≠ "while_statement")
    (h4 : t ≠ "assignment_expression") (h5 : t ≠ "init_declarator") (h6 : t ≠ "call_expression")
    (hw : traverse_list ch fr = (fr1, o1)) :
    traverse_collect (.node t tx ch) fr = (fr1, o1) := by
  have ha : alias_step (.node t tx ch) fr = fr := by
    rw [alias_step]
    simp only [CNode.ty]
    rw [if_neg (fun hh => hh.elim h4 h5)]
  have hc : call_step (.node t tx ch) fr = (fr, Out.empty) := by
    rw [call_step]
    simp only [CNode.ty]
    rw [if_neg h6]
  rw [traverse_collect]
  simp only [h1, h2, h3, if_false, ite_false, or_self, or_false, false_or,
    reduceIte, ha, hc, hw]
  rw [out_app_empty_left]

theorem tc_assign_skip (t tx : String) (ch : List (Option String × CNode)) (fr fr1 : Frame)
    (o1 : Out)
    (h1 : t = "assignment_expression" ∨ t = "init_declarator")
    (h2 : t ≠ "function_definition") (h3 : t ≠ "for_statement") (h4 : t ≠ "while_statement")
    (h6 : t ≠ "call_expression")
    (hcur : fr.current_fn = none)
    (hw : traverse_list ch fr = (fr1, o1)) :
    traverse_collect (.node t tx ch) fr = (fr1, o1) := by
  have ha : alias_step (.node t tx ch) fr = fr := by
    rw [alias_step]
    simp only [CNode.ty]
    rw [if_pos h1]
    simp only [hcur]
  have hc : call_step (.node t tx ch) fr = (fr, Out.empty) := by
    rw [call_step]
    simp only [CNode.ty]
    rw [if_neg h6]
  rw [traverse_collect]
  simp only [h2, h3, h4, if_false, ite_false, or_self, or_false, false_or,
    reduceIte, ha, hc, hw]
  rw [out_app_empty_left]

theorem tc_call_out (tx : String) (ch : List (Option String × CNode)) (fr fr1 : Frame)
    (o1 : Out) (nm : String)
    (hn : extract_call_name (.node "call_expression" tx ch) = some nm) (hne : nm ≠ "")
    (hcur : fr.current_fn = none)
    (hw : traverse_list ch fr = (fr1, o1)) :
    traverse_collect (.node "call_expression" tx ch) fr =
      (fr1, Out.app { loops := [], calls := [nm], functions := [], recs := [] } o1) := by
  have ha : alias_step (.node "call_expression" tx ch) fr = fr := by
    rw [alias_step]
    simp only [CNode.ty]
    rw [if_neg (by simp)]
  have hc : call_step (.node "call_expression" tx ch) fr =
      (fr, { loops := [], calls := [nm], functions := [], recs := [] }) := by
    rw [call_step]
    simp only [CNode.ty]
    rw [if_pos trivial]
    simp only [hn, hne, hcur, ne_eq, not_false_eq_true, ite_true, reduceIte]
  rw [traverse_collect]
  simp only [String.reduceEq, reduceIte, or_self, ite_false, if_false, ha, hc, hw]

theorem tc_call_self (tx : String) (ch : List (Option String × CNode)) (fr fr3 fr5 : Frame)
    (o1 : Out) (nm : String)
    (hn : extract_call_name (.node "call_expression" tx ch) = some nm) (hne : nm ≠ "")
    (hcur : fr.current_fn = some nm)
    (ha : analyze_self_call (.node "call_expression" tx ch)
      { fr with
        current_fn := some nm
        current_fn_calls := fr.current_fn_calls ++ [nm]
        saw_recursive_call := true } = fr3)
    (hw : traverse_list ch fr3 = (fr5, o1)) :
    traverse_collect (.node "call_expression" tx ch) fr =
      (fr5, Out.app { loops := [], calls := [nm], functions := [], recs := [] } o1) := by
  have hal : alias_step (.node "call_expression" tx ch) fr = fr := by
    rw [alias_step]
    simp only [CNode.ty]
    rw [if_neg (by simp)]
  have hc : call_step (.node "call_expression" tx ch) fr =
      (fr3, { loops := [], calls := [nm], functions := [], recs := [] }) := by
    rw [call_step]
    simp only [CNode.ty]
    rw [if_pos trivial]
    simp only [hn, hne, hcur, ne_eq, not_false_eq_true, ite_true, reduceIte,
      eq_self_iff_true]
    rw [ha]
  rw [traverse_collect]
  simp only [String.reduceEq, reduceIte, or_self, ite_false, if_false, hal, hc, hw]

theorem tc_fndef (tx : String) (ch : List (Option String × CNode)) (fr fr2 fr3 fr4 : Frame)
    (out1 out2 : Out) (nmo : Option String)
    (hn : extract_function_name_from_definition (.node "function_definition" tx ch) = nmo)
    (hc : choose_size_param (.node "function_definition" tx ch) (enter_function nmo) = fr2)
    (hw : traverse_list ch fr2 = (fr3, out1))
    (hl : leave_function fr3 = (fr4, out2)) :
    traverse_collect (.node "function_definition" tx ch) fr = (fr4, out1.app out2) := by
  rw [traverse_collect]
  simp only [hn, hc, reduceIte, String.reduceEq, ite_true, if_true]
  rw [hw]
  simp only []
  rw [hl]

/-- Node types the walker treats with no state change at all. -/
def plain_ty (t : String) : Bool :=
  t ≠ "function_definition" && t ≠ "for_statement" && t ≠ "while_statement" &&
    t ≠ "assignment_expression" && t ≠ "init_declarator" && t ≠ "call_expression"

mutual
def plain_tree : CNode → Bool
  | .node t _ ch => plain_ty t && plain_list ch
def plain_list : List (Option String × CNode) → Bool
  | [] => true
  | (_, c) :: r => plain_tree c && plain_list r
end

mutual
theorem tc_inert (n : CNode) (fr : Frame) (h : plain_tree n = true) :
    traverse_collect n fr = (fr, Out.empty) := by
  match n with
  | .node t tx ch =>
    rw [plain_tree, Bool.and_eq_true] at h
    obtain ⟨hty, hch⟩ := h
    rw [plain_ty] at hty
    simp only [Bool.and_eq_true, decide_eq_true_eq] at hty
    obtain ⟨⟨⟨⟨⟨ht1, ht2⟩, ht3⟩, ht4⟩, ht5⟩, ht6⟩ := hty
    exact tc_plain t tx ch fr fr Out.empty ht1 ht2 ht3 ht4 ht5 ht6 (tl_inert ch fr hch)
theorem tl_inert (l : List (Option String × CNode)) (fr : Frame) (h : plain_list l = true) :
    traverse_list l fr = (fr, Out.empty) := by
  match l with
  | [] => exact tl_nil fr
  | (f, c) :: r =>
    rw [plain_list] at h
    simp only [Bool.and_eq_true] at h
    rw [tl_cons f c r fr fr fr Out.empty Out.empty (tc_inert c fr h.1) (tl_inert r fr h.2)]
    rw [out_app_empty_left]
end

/-- Assembly of `parse_code` on the `"c"` path from a completed walk. -/
theorem parse_code_c (code : String) (root : CNode) (fr : Frame) (out : Out)
    (hc : code ≠ "") (hw : traverse_collect root frame0 = (fr, out)) :
    parse_code (some "c") code root =
      { ast := [("language", J.s "c"), ("rootType", J.s root.ty)],
        summary := conv_field
          [("loops", J.arr out.loops), ("calls", J.arr (out.calls.map J.s)),
           ("functions", J.arr out.functions), ("recurrences", J.arr out.recs)] out.recs } := by
  rw [parse_code]
  simp only [hc, hw, reduceIte, String.reduceEq, ite_true, if_true, ite_false, if_false,
    jset, jget]

theorem tl_one (f : Option String) (c : CNode) (fr fr1 : Frame) (o1 : Out)
    (h : traverse_collect c fr = (fr1, o1)) : traverse_list [(f, c)] fr = (fr1, o1) :=
  (tl_cons f c [] fr fr1 fr1 o1 Out.empty h (tl_nil fr1)).trans
    (by rw [out_app_empty_right])

theorem tl_cons_inert (f : Option String) (c : CNode) (r : List (Option String × CNode))
    (fr fr2 : Frame) (o2 : Out) (hin : plain_tree c = true)
    (h : traverse_list r fr = (fr2, o2)) : traverse_list ((f, c) :: r) fr = (fr2, o2) :=
  (tl_cons f c r fr fr fr2 Out.empty o2 (tc_inert c fr hin) h).trans
    (by rw [out_app_empty_left])

theorem tl_two (f1 f2 : Option String) (c1 c2 : CNode) (fr fr1 fr2 : Frame) (o1 o2 : Out)
    (h1 : traverse_collect c1 fr = (fr1, o1)) (h2 : traverse_collect c2 fr1 = (fr2, o2)) :
    traverse_list [(f1, c1), (f2, c2)] fr = (fr2, o1.app o2) :=
  tl_cons f1 c1 [(f2, c2)] fr fr1 fr2 o1 o2 h1 (tl_one f2 c2 fr1 fr2 o2 h2)

/-! ## Evaluated walks of the concrete trees -/

def oCall (nm : String) : Out := { loops := [], calls := [nm], functions := [], recs := [] }

/-- Frame after entering `f` and choosing its size parameter. -/
def fr2_f : Frame :=
  { current_fn := some "f", loop_depth := 0, max_loop_depth := 0, loop_count := 0,
    saw_recursive_call := false, current_fn_calls := [], size_param_name := some "n",
    size_param_index := 0, aliases := [], self_calls_a := 0, has_divide_b := false,
    divide_b := 0, b_ambiguous := false, has_decrease := false, decrease_c := 0 }

/-- Frame of `f` after its self-call `f(n/2)`. -/
def fr3_f : Frame :=
  { fr2_f with
    saw_recursive_call := true
    current_fn_calls := ["f"]
    self_calls_a := 1
    has_divide_b := true
    divide_b := 2 }

/-- Frame after leaving `f`. -/
def fr4_f : Frame :=
  { fr3_f with
    current_fn := none
    size_param_name := none
    current_fn_calls := [] }

def record_f : J :=
  J.obj [("name", J.s "f"), ("is_recursive", J.b true), ("calls", J.arr [J.s "f"]),
    ("loopCount", J.i 0), ("maxLoopDepth", J.i 0), ("sizeParam", J.s "n"),
    ("sizeParamIndex", J.i 0),
    ("recurrence", J.obj [("a", J.i 1), ("f", J.s "1"), ("b", J.i 2), ("model", J.s "divide")])]

def entry_f : J :=
  J.obj [("function", J.s "f"), ("a", J.i 1), ("f", J.s "1"), ("b", J.i 2),
    ("model", J.s "divide")]

def out_f : Out := { loops := [], calls := ["f"], functions := [record_f], recs := [entry_f] }

theorem asc_call_f : analyze_self_call call_f
    { fr2_f with
      current_fn := some "f"
      current_fn_calls := fr2_f.current_fn_calls ++ ["f"]
      saw_recursive_call := true } = fr3_f := by decide

theorem walk_call_f : traverse_collect call_f fr2_f = (fr3_f, oCall "f") := by
  refine (tc_call_self _ _ _ _ _ _ _ ?_ ?_ ?_ asc_call_f (tl_inert _ fr3_f ?_)).trans ?_
  · rfl
  · decide
  · rfl
  · decide
  · rfl

theorem walk_body_f : traverse_collect (.node "compound_statement" ""
    [((none : Option String), call_f)]) fr2_f = (fr3_f, oCall "f") := by
  refine tc_plain _ _ _ _ _ _ ?_ ?_ ?_ ?_ ?_ ?_ (tl_one _ _ _ _ _ walk_call_f) <;> decide

theorem name_fn_f : extract_function_name_from_definition fn_f = some "f" := by decide

theorem choose_fn_f : choose_size_param fn_f (enter_function (some "f")) = fr2_f := by decide

def out_leave_f : Out := { loops := [], calls := [], functions := [record_f], recs := [entry_f] }

theorem leave_f : leave_function fr3_f = (fr4_f, out_leave_f) := by rfl

theorem walk_fn_f (fr : Frame) : traverse_collect fn_f fr = (fr4_f, out_f) := by
  have hch : traverse_list fn_f.children fr2_f = (fr3_f, oCall "f") := by
    refine tl_cons_inert _ _ _ _ _ _ ?_
      (tl_cons_inert _ _ _ _ _ _ ?_ (tl_one _ _ _ _ _ walk_body_f)) <;> decide
  exact (tc_fndef _ _ fr fr2_f fr3_f fr4_f _ _ (some "f") name_fn_f choose_fn_f hch
    leave_f).trans (by rfl)

/-- Frame after entering `g` and choosing its size parameter. -/
def fr2_g : Frame := { fr2_f with current_fn := some "g" }

/-- Frame of `g` after its self-call `g(n-1)`. -/
def fr3_g : Frame :=
  { fr2_g with
    saw_recursive_call := true
    current_fn_calls := ["g"]
    self_calls_a := 1
    has_decrease := true
    decrease_c := 1 }

/-- Frame after leaving `g`. -/
def fr4_g : Frame :=
  { fr3_g with
    current_fn := none
    size_param_name := none
    current_fn_calls := [] }

def record_g : J :=
  J.obj [("name", J.s "g"), ("is_recursive", J.b true), ("calls", J.arr [J.s "g"]),
    ("loopCount", J.i 0), ("maxLoopDepth", J.i 0), ("sizeParam", J.s "n"),
    ("sizeParamIndex", J.i 0),
    ("recurrence", J.obj [("a", J.i 1), ("f", J.s "1"), ("model", J.s "decrease"),
      ("c", J.i 1)])]

def entry_g : J :=
  J.obj [("function", J.s "g"), ("a", J.i 1), ("f", J.s "1"), ("model", J.s "decrease"),
    ("c", J.i 1)]

def out_g : Out := { loops := [], calls := ["g"], functions := [record_g], recs := [entry_g] }

theorem asc_call_g : analyze_self_call call_g
    { fr2_g with
      current_fn := some "g"
      current_fn_calls := fr2_g.current_fn_calls ++ ["g"]
      saw_recursive_call := true } = fr3_g := by decide

theorem walk_call_g : traverse_collect call_g fr2_g = (fr3_g, oCall "g") := by
  refine (tc_call_self _ _ _ _ _ _ _ ?_ ?_ ?_ asc_call_g (tl_inert _ fr3_g ?_)).trans ?_
  · rfl
  · decide
  · rfl
  · decide
  · rfl

theorem walk_body_g : traverse_collect (.node "compound_statement" ""
    [((none : Option String), call_g)]) fr2_g = (fr3_g, oCall "g") := by
  refine tc_plain _ _ _ _ _ _ ?_ ?_ ?_ ?_ ?_ ?_ (tl_one _ _ _ _ _ walk_call_g) <;> decide

theorem walk_fn_g (fr : Frame) : traverse_collect fn_g fr = (fr4_g, out_g) := by
  have hch : traverse_list fn_g.children fr2_g = (fr3_g, oCall "g") := by
    refine tl_cons_inert _ _ _ _ _ _ ?_
      (tl_cons_inert _ _ _ _ _ _ ?_ (tl_one _ _ _ _ _ walk_body_g)) <;> decide
  exact (tc_fndef _ _ fr fr2_g fr3_g fr4_g _ _ (some "g") (by decide) (by decide) hch
    (by rfl)).trans (by rfl)

/-- Frame after entering `h` and choosing its size parameter. -/
def fr2_h : Frame := { fr2_f with current_fn := some "h" }

/-- Frame of `h` after its first self-call `h(n/2)`. -/
def fr3_h : Frame :=
  { fr2_h with
    saw_recursive_call := true
    current_fn_calls := ["h"]
    self_calls_a := 1
    has_divide_b := true
    divide_b := 2 }

/-- Frame of `h` after its second self-call `h(n-1)`. -/
def fr4_h : Frame :=
  { fr3_h with
    current_fn_calls := ["h", "h"]
    self_calls_a := 2
    has_decrease := true
    decrease_c := 1 }

/-- Frame after leaving `h`. -/
def fr5_h : Frame :=
  { fr4_h with
    current_fn := none
    size_param_name := none
    current_fn_calls := [] }

def record_h : J :=
  J.obj [("name", J.s "h"), ("is_recursive", J.b true), ("calls", J.arr [J.s "h", J.s "h"]),
    ("loopCount", J.i 0), ("maxLoopDepth", J.i 0), ("sizeParam", J.s "n"),
    ("sizeParamIndex", J.i 0),
    ("recurrence", J.obj [("a", J.i 2), ("f", J.s "1"), ("model", J.s "divide"),
      ("c", J.i 1), ("b", J.i 2)])]

def entry_h : J :=
  J.obj [("function", J.s "h"), ("a", J.i 2), ("f", J.s "1"), ("b", J.i 2),
    ("model", J.s "divide"), ("c", J.i 1)]

def out_h : Out :=
  { loops := [], calls := ["h", "h"], functions := [record_h], recs := [entry_h] }

theorem asc_call_h1 : analyze_self_call call_h1
    { fr2_h with
      current_fn := some "h"
      current_fn_calls := fr2_h.current_fn_calls ++ ["h"]
      saw_recursive_call := true } = fr3_h := by decide

theorem asc_call_h2 : analyze_self_call call_h2
    { fr3_h with
      current_fn := some "h"
      current_fn_calls := fr3_h.current_fn_calls ++ ["h"]
      saw_recursive_call := true } = fr4_h := by decide

theorem walk_call_h1 : traverse_collect call_h1 fr2_h = (fr3_h, oCall "h") := by
  refine (tc_call_self _ _ _ _ _ _ _ ?_ ?_ ?_ asc_call_h1 (tl_inert _ fr3_h ?_)).trans ?_
  · rfl
  · decide
  · rfl
  · decide
  · rfl

theorem walk_call_h2 : traverse_collect call_h2 fr3_h = (fr4_h, oCall "h") := by
  refine (tc_call_self _ _ _ _ _ _ _ ?_ ?_ ?_ asc_call_h2 (tl_inert _ fr4_h ?_)).trans ?_
  · rfl
  · decide
  · rfl
  · decide
  · rfl

theorem walk_body_h : traverse_collect (.node "compound_statement" ""
    [((none : Option String), call_h1), ((none : Option String), call_h2)]) fr2_h =
    (fr4_h, (oCall "h").app (oCall "h")) := by
  refine tc_plain _ _ _ _ _ _ ?_ ?_ ?_ ?_ ?_ ?_
    (tl_two _ _ _ _ _ _ _ _ _ walk_call_h1 walk_call_h2) <;> decide

theorem walk_fn_h (fr : Frame) : traverse_collect fn_h fr = (fr5_h, out_h) := by
  have hch : traverse_list fn_h.children fr2_h = (fr4_h, (oCall "h").app (oCall "h")) := by
    refine tl_cons_inert _ _ _ _ _ _ ?_
      (tl_cons_inert _ _ _ _ _ _ ?_ (tl_one _ _ _ _ _ walk_body_h)) <;> decide
  exact (tc_fndef _ _ fr fr2_h fr4_h fr5_h _ _ (some "h") (by decide) (by decide) hch
    (by rfl)).trans (by rfl)

/-- The frame `enter_function none` produces for the unnamed definition. -/
def fr_unnamed : Frame :=
  { current_fn := none, loop_depth := 0, max_loop_depth := 0, loop_count := 0,
    saw_recursive_call := false, current_fn_calls := [], size_param_name := none,
    size_param_index := -1, aliases := [], self_calls_a := 0, has_divide_b := false,
    divide_b := 0, b_ambiguous := false, has_decrease := false, decrease_c := 0 }

theorem walk_unnamed (fr : Frame) : traverse_collect unnamed_def fr = (fr_unnamed, Out.empty) := by
  refine (tc_fndef _ _ fr fr_unnamed fr_unnamed fr_unnamed Out.empty Out.empty none ?_ ?_
    (tl_inert _ fr_unnamed ?_) ?_).trans ?_
  · decide
  · decide
  · decide
  · rfl
  · rfl

theorem walk_body_c9 : traverse_collect (.node "compound_statement" ""
    [((none : Option String), unnamed_def)]) fr2_f = (fr_unnamed, Out.empty) := by
  refine tc_plain _ _ _ _ _ _ ?_ ?_ ?_ ?_ ?_ ?_ (tl_one _ _ _ _ _ (walk_unnamed fr2_f)) <;>
    decide

theorem walk_fn_c9 (fr : Frame) :
    traverse_collect ( mk_fndef "f" "n" [unnamed_def]) fr = (fr_unnamed, Out.empty) := by
  have hch : traverse_list ( mk_fndef "f" "n" [unnamed_def]).children fr2_f =
      (fr_unnamed, Out.empty) := by
    refine tl_cons_inert _ _ _ _ _ _ ?_
      (tl_cons_inert _ _ _ _ _ _ ?_ (tl_one _ _ _ _ _ walk_body_c9)) <;> decide
  exact (tc_fndef _ _ fr fr2_f fr_unnamed fr_unnamed _ _ (some "f") (by decide) (by decide)
    hch (by rfl)).trans (by rfl)

/-! ## Walks of the five roots -/

def out_c1 : Out :=
  { loops := [], calls := ["f", "g"], functions := [record_f, record_g],
    recs := [entry_f, entry_g] }

theorem walk_c1 : traverse_collect c1_tree frame0 = (fr4_g, out_c1) := by
  refine (tc_plain _ _ _ _ _ _ ?_ ?_ ?_ ?_ ?_ ?_
    (tl_two _ _ _ _ _ _ _ _ _ (walk_fn_f frame0) (walk_fn_g fr4_f))).trans ?_
  · decide
  · decide
  · decide
  · decide
  · decide
  · decide
  · rfl

theorem walk_c2 : traverse_collect c2_tree frame0 = (fr5_h, out_h) := by
  refine (tc_plain _ _ _ _ _ _ ?_ ?_ ?_ ?_ ?_ ?_
    (tl_one _ _ _ _ _ (walk_fn_h frame0))) <;> decide

theorem walk_conv : traverse_collect conv_tree frame0 = (fr4_f, out_f) := by
  refine (tc_plain _ _ _ _ _ _ ?_ ?_ ?_ ?_ ?_ ?_
    (tl_one _ _ _ _ _ (walk_fn_f frame0))) <;> decide

theorem walk_c9 : traverse_collect c9_tree frame0 = (fr_unnamed, Out.empty) := by
  refine (tc_plain _ _ _ _ _ _ ?_ ?_ ?_ ?_ ?_ ?_
    (tl_one _ _ _ _ _ (walk_fn_c9 frame0))) <;> decide

theorem walk_call_c7 : traverse_collect (mk_call "f" "()") frame0 = (frame0, oCall "f") := by
  refine (tc_call_out _ _ _ _ _ "f" ?_ ?_ ?_ (tl_inert _ frame0 ?_)).trans ?_
  · rfl
  · decide
  · rfl
  · decide
  · rfl

theorem walk_init_c7 : traverse_collect
    (.node "init_declarator" "x = f()" [(none, mk_id "x"), (some "value", mk_call "f" "()")])
    frame0 = (frame0, oCall "f") := by
  refine tc_assign_skip _ _ _ _ _ _ (Or.inr rfl) ?_ ?_ ?_ ?_ ?_
    (tl_cons_inert _ _ _ _ _ _ ?_ (tl_one _ _ _ _ _ walk_call_c7)) <;> decide

theorem walk_decl_c7 : traverse_collect
    (.node "declaration" "int x = f();"
      [(none, .node "primitive_type" "int" []),
       (none, .node "init_declarator" "x = f()"
          [(none, mk_id "x"), (some "value", mk_call "f" "()")])]) frame0 =
    (frame0, oCall "f") := by
  refine tc_plain _ _ _ _ _ _ ?_ ?_ ?_ ?_ ?_ ?_
    (tl_cons_inert _ _ _ _ _ _ ?_ (tl_one _ _ _ _ _ walk_init_c7)) <;> decide

theorem walk_c7 : traverse_collect c7_tree frame0 = (frame0, oCall "f") := by
  refine tc_plain _ _ _ _ _ _ ?_ ?_ ?_ ?_ ?_ ?_ (tl_one _ _ _ _ _ walk_decl_c7) <;> decide

/-! ## Parses of the concrete trees -/

def summary_c1 : JObj :=
  [("loops", J.arr []), ("calls", J.arr [J.s "f", J.s "g"]),
   ("functions", J.arr [record_f, record_g]), ("recurrences", J.arr [entry_f, entry_g])]

theorem parse_c1 : parse_code (some "c") "x" c1_tree =
    { ast := [("language", J.s "c"), ("rootType", J.s "translation_unit")],
      summary := summary_c1 } := by
  rw [parse_code_c "x" c1_tree fr4_g out_c1 (by decide) walk_c1]
  rfl

def summary_c2 : JObj :=
  [("loops", J.arr []), ("calls", J.arr [J.s "h", J.s "h"]),
   ("functions", J.arr [record_h]), ("recurrences", J.arr [entry_h]),
   ("recurrence", J.obj [("a", J.i 2), ("b", J.i 2), ("f", J.s "1")])]

theorem parse_c2 : parse_code (some "c") "x" c2_tree =
    { ast := [("language", J.s "c"), ("rootType", J.s "translation_unit")],
      summary := summary_c2 } := by
  rw [parse_code_c "x" c2_tree fr5_h out_h (by decide) walk_c2]
  rfl

def summary_conv : JObj :=
  [("loops", J.arr []), ("calls", J.arr [J.s "f"]),
   ("functions", J.arr [record_f]), ("recurrences", J.arr [entry_f]),
   ("recurrence", J.obj [("a", J.i 1), ("b", J.i 2), ("f", J.s "1")])]

theorem parse_conv : parse_code (some "c") "x" conv_tree =
    { ast := [("language", J.s "c"), ("rootType", J.s "translation_unit")],
      summary := summary_conv } := by
  rw [parse_code_c "x" conv_tree fr4_f out_f (by decide) walk_conv]
  rfl

def summary_empty4 : JObj :=
  [("loops", J.arr []), ("calls", J.arr []), ("functions", J.arr []),
   ("recurrences", J.arr [])]

theorem parse_c9 : parse_code (some "c") "x" c9_tree =
    { ast := [("language", J.s "c"), ("rootType", J.s "translation_unit")],
      summary := summary_empty4 } := by
  rw [parse_code_c "x" c9_tree fr_unnamed Out.empty (by decide) walk_c9]
  rfl

def summary_c7 : JObj :=
  [("loops", J.arr []), ("calls", J.arr [J.s "f"]), ("functions", J.arr []),
   ("recurrences", J.arr [])]

theorem parse_c7 : parse_code (some "c") "x" c7_tree =
    { ast := [("language", J.s "c"), ("rootType", J.s "translation_unit")],
      summary := summary_c7 } := by
  rw [parse_code_c "x" c7_tree frame0 (oCall "f") (by decide) walk_c7]
  rfl

/-! ## Lookup lemmas for the JSON object operations -/

theorem jget_jset_same (o : JObj) (k : String) (v : J) : jget (jset o k v) k = some v := by
  induction o with
  | nil => simp [jset, jget]
  | cons p r ih =>
    obtain ⟨k2, v2⟩ := p
    by_cases h : k2 = k
    · simp [jset, jget, h]
    · simp [jset, jget, h, ih]

theorem jget_jset_ne (o : JObj) (k k2 : String) (v : J) (h : k ≠ k2) :
    jget (jset o k v) k2 = jget o k2 := by
  induction o with
  | nil => simp [jset, jget, h]
  | cons p r ih =>
    obtain ⟨k3, v3⟩ := p
    by_cases hp : k3 = k
    · subst hp
      simp only [jset, if_pos rfl, jget]
      rw [if_neg h, if_neg h]
    · simp only [jset, if_neg hp, jget]
      by_cases hp2 : k3 = k2
      · rw [if_pos hp2, if_pos hp2]
      · rw [if_neg hp2, if_neg hp2]
        exact ih

theorem jget_jset_opt_ne (o : JObj) (k k2 : String) (v : Option J) (h : k ≠ k2) :
    jget (jset_opt o k v) k2 = jget o k2 := by
  cases v with
  | none => rfl
  | some x => exact jget_jset_ne o k k2 x h

theorem jget_jset_opt_self (o : JObj) (k : String) (v : Option J) (h : jget o k = none) :
    jget (jset_opt o k v) k = v := by
  cases v with
  | none => exact h
  | some x => exact jget_jset_same o k x

/-! ## Field values of the emitted objects -/

theorem mk_rec_object_spec (fr : Frame) :
    jget (mk_rec_object fr) "a" = some (J.i fr.self_calls_a) ∧
    jget (mk_rec_object fr) "f" = some (J.s (f_expr_of_depth fr.max_loop_depth)) ∧
    jget (mk_rec_object fr) "model" =
      (if fr.has_divide_b ∧ fr.divide_b > 1 then some (J.s "divide")
       else if fr.has_decrease then some (J.s "decrease") else none) ∧
    jget (mk_rec_object fr) "b" =
      (if fr.has_divide_b ∧ fr.divide_b > 1 then some (J.i fr.divide_b) else none) ∧
    jget (mk_rec_object fr) "b_ambiguous" =
      (if (fr.has_divide_b ∧ fr.divide_b > 1) ∧ fr.b_ambiguous then some (J.b true) else none) ∧
    jget (mk_rec_object fr) "c" =
      (if fr.has_decrease then some (J.i fr.decrease_c) else none) ∧
    jget (mk_rec_object fr) "function" = none := by
  rw [mk_rec_object]
  by_cases hdec : fr.has_decrease = true <;>
    by_cases hamb : fr.b_ambiguous = true <;>
      by_cases hdiv : fr.has_divide_b = true ∧ fr.divide_b > 1
  all_goals try simp only [if_neg hdiv]
  all_goals simp_all [jget, jset]
  all_goals rw [if_neg (fun h => absurd h.2 (not_lt.mpr (hdiv h.1)))]

theorem mk_fn_obj_fields (nm : String) (fr : Frame) :
    jget (mk_fn_obj nm fr) "name" = some (J.s nm) ∧
    jget (mk_fn_obj nm fr) "calls" = some (J.arr (fr.current_fn_calls.map J.s)) ∧
    jget (mk_fn_obj nm fr) "recurrence" =
      (if fr.saw_recursive_call then some (J.obj (mk_rec_object fr)) else none) := by
  rw [mk_fn_obj]
  by_cases hsaw : fr.saw_recursive_call = true <;>
    cases hspn : fr.size_param_name <;>
      by_cases hspi : fr.size_param_index ≥ 0
  all_goals try simp only [if_neg hspi]
  all_goals simp_all [jget, jset]

theorem mk_top_entry_fields (nm : String) (fr : Frame) :
    jget (mk_top_entry nm fr) "function" = some (J.s nm) ∧
    jget (mk_top_entry nm fr) "a" = jget (mk_rec_object fr) "a" ∧
    jget (mk_top_entry nm fr) "f" = jget (mk_rec_object fr) "f" := by
  rw [mk_top_entry]
  obtain ⟨ha, hf, _, _, _, _, _⟩ := mk_rec_object_spec fr
  refine ⟨?_, ?_, ?_⟩
  · by_cases hamb : fr.b_ambiguous = true <;>
      simp_all [jget_jset_opt_ne, jget_jset_ne, jget]
  · by_cases hamb : fr.b_ambiguous = true <;>
      rw [ha] <;>
        simp_all [jget_jset_opt_ne, jget_jset_ne, jget_jset_same, jget_jset_opt_self, jget]
  · by_cases hamb : fr.b_ambiguous = true <;>
      rw [hf] <;>
        simp_all [jget_jset_opt_ne, jget_jset_ne, jget_jset_same, jget_jset_opt_self, jget]

/-! ## Shape of the self-call analysis: only the recurrence accumulators and
`self_calls_a` are written -/

theorem consider_divide_b_shape (fr : Frame) (b : Int) :
    ∃ u v w, consider_divide_b fr b =
      { fr with has_divide_b := u, divide_b := v, b_ambiguous := w } := by
  unfold consider_divide_b
  split
  · exact ⟨fr.has_divide_b, fr.divide_b, fr.b_ambiguous, rfl⟩
  split
  · exact ⟨true, b, fr.b_ambiguous, rfl⟩
  split
  · exact ⟨fr.has_divide_b, if b < fr.divide_b then b else fr.divide_b, true, rfl⟩
  · exact ⟨fr.has_divide_b, fr.divide_b, fr.b_ambiguous, rfl⟩

theorem asc_alias_lookup_shape (arg : List Char) (fr : Frame) :
    ∃ u v w x y, asc_alias_lookup arg fr =
      { fr with has_divide_b := u, divide_b := v, b_ambiguous := w,
                has_decrease := x, decrease_c := y } := by
  simp only [asc_alias_lookup]
  repeat' split
  all_goals
    try exact ⟨fr.has_divide_b, fr.divide_b, fr.b_ambiguous, fr.has_decrease, fr.decrease_c, rfl⟩
  all_goals try exact ⟨fr.has_divide_b, fr.divide_b, fr.b_ambiguous, true, _, rfl⟩
  all_goals
    obtain ⟨u, v, w, h⟩ := consider_divide_b_shape fr _
    exact ⟨u, v, w, fr.has_decrease, fr.decrease_c, h.trans rfl⟩

theorem asc_classify_shape (arg : List Char) (pname : String) (fr : Frame) :
    ∃ u v w x y, asc_classify arg pname fr =
      { fr with has_divide_b := u, divide_b := v, b_ambiguous := w,
                has_decrease := x, decrease_c := y } := by
  simp only [asc_classify]
  by_cases h1 : (analyze_expr_wrt_param arg pname.toList cls0).has_div = true ∧
      (analyze_expr_wrt_param arg pname.toList cls0).div_b > 1
  · obtain ⟨u, v, w, hc⟩ :=
      consider_divide_b_shape fr (analyze_expr_wrt_param arg pname.toList cls0).div_b
    rw [if_pos h1, hc]
    by_cases h2 : (analyze_expr_wrt_param arg pname.toList cls0).has_dec = true ∧
        (analyze_expr_wrt_param arg pname.toList cls0).dec_c > 0
    · rw [if_pos h2, if_neg (fun hx => hx.1 h1.1)]
      exact ⟨u, v, w, true, _, rfl⟩
    · rw [if_neg h2, if_neg (fun hx => hx.1 h1.1)]
      exact ⟨u, v, w, fr.has_decrease, fr.decrease_c, rfl⟩
  · rw [if_neg h1]
    by_cases h2 : (analyze_expr_wrt_param arg pname.toList cls0).has_dec = true ∧
        (analyze_expr_wrt_param arg pname.toList cls0).dec_c > 0
    · rw [if_pos h2, if_neg (fun hx => hx.2 h2.1)]
      exact ⟨fr.has_divide_b, fr.divide_b, fr.b_ambiguous, true, _, rfl⟩
    · rw [if_neg h2]
      by_cases h3 : ¬ (analyze_expr_wrt_param arg pname.toList cls0).has_div = true ∧
          ¬ (analyze_expr_wrt_param arg pname.toList cls0).has_dec = true
      · rw [if_pos h3]
        exact asc_alias_lookup_shape arg fr
      · rw [if_neg h3]
        exact ⟨fr.has_divide_b, fr.divide_b, fr.b_ambiguous, fr.has_decrease, fr.decrease_c, rfl⟩

theorem analyze_self_call_shape (c : CNode) (fr : Frame) :
    ∃ u v w x y, analyze_self_call c fr =
      { fr with self_calls_a := fr.self_calls_a + 1, has_divide_b := u, divide_b := v,
                b_ambiguous := w, has_decrease := x, decrease_c := y } := by
  simp only [analyze_self_call]
  repeat' split
  all_goals
    try exact ⟨fr.has_divide_b, fr.divide_b, fr.b_ambiguous, fr.has_decrease, fr.decrease_c, rfl⟩
  all_goals
    obtain ⟨u, v, w, x, y, h⟩ :=
      asc_classify_shape _ _ { fr with self_calls_a := fr.self_calls_a + 1 }
    exact ⟨u, v, w, x, y, h.trans rfl⟩

/-! ## Shape and projection lemmas for the walker dispatch -/

theorem alias_step_shape (n : CNode) (fr : Frame) :
    ∃ al, alias_step n fr = { fr with aliases := al } := by
  unfold alias_step
  split
  · split
    · exact ⟨_, rfl⟩
    · exact ⟨fr.aliases, rfl⟩
  · exact ⟨fr.aliases, rfl⟩

theorem loop_enter_shape (fr : Frame) :
    ∃ lc mld, loop_enter fr = { fr with loop_count := lc, max_loop_depth := mld } := by
  unfold loop_enter
  split
  · exact ⟨_, _, rfl⟩
  · exact ⟨fr.loop_count, fr.max_loop_depth, rfl⟩

theorem choose_size_param_shape (d : CNode) (fr : Frame) :
    ∃ i p, choose_size_param d fr = { fr with size_param_index := i, size_param_name := p } := by
  unfold choose_size_param
  split
  · exact ⟨_, _, rfl⟩
  · exact ⟨fr.size_param_index, fr.size_param_name, rfl⟩

theorem asc_fields (c : CNode) (fr : Frame) :
    (analyze_self_call c fr).current_fn = fr.current_fn ∧
    (analyze_self_call c fr).saw_recursive_call = fr.saw_recursive_call ∧
    (analyze_self_call c fr).current_fn_calls = fr.current_fn_calls ∧
    (analyze_self_call c fr).self_calls_a = fr.self_calls_a + 1 ∧
    (analyze_self_call c fr).aliases = fr.aliases := by
  obtain ⟨u, v, w, x, y, h⟩ := analyze_self_call_shape c fr
  rw [h]
  exact ⟨rfl, rfl, rfl, rfl, rfl⟩

theorem leave_function_none (fr : Frame) (h : fr.current_fn = none) :
    leave_function fr = (fr, Out.empty) := by
  unfold leave_function
  rw [h]

theorem leave_function_some (fr : Frame) (nm : String) (h : fr.current_fn = some nm) :
    leave_function fr =
      ({ fr with current_fn := none, size_param_name := none, current_fn_calls := [],
                 aliases := [] },
       { loops := [], calls := [], functions := [J.obj (mk_fn_obj nm fr)],
         recs := if fr.saw_recursive_call then [J.obj (mk_top_entry nm fr)] else [] }) := by
  unfold leave_function
  rw [h]

theorem call_step_not (n : CNode) (fr : Frame) (h : ¬ n.ty = "call_expression") :
    call_step n fr = (fr, Out.empty) := by
  unfold call_step
  rw [if_neg h]

theorem call_step_noname (n : CNode) (fr : Frame) (ht : n.ty = "call_expression")
    (he : extract_call_name n = none) : call_step n fr = (fr, Out.empty) := by
  unfold call_step
  rw [if_pos ht, he]

theorem call_step_anon (n : CNode) (fr : Frame) (ht : n.ty = "call_expression")
    (he : extract_call_name n = some "") : call_step n fr = (fr, Out.empty) := by
  unfold call_step
  rw [if_pos ht, he]
  simp

theorem call_step_nocur (n : CNode) (fr : Frame) (m : String) (ht : n.ty = "call_expression")
    (he : extract_call_name n = some m) (hm : m ≠ "") (hc : fr.current_fn = none) :
    call_step n fr = (fr, oCall m) := by
  unfold call_step
  rw [if_pos ht, he]
  simp only [hm, hc, ne_eq, not_false_eq_true, ite_true, oCall]

theorem call_step_other (n : CNode) (fr : Frame) (m cur : String) (ht : n.ty = "call_expression")
    (he : extract_call_name n = some m) (hm : m ≠ "") (hc : fr.current_fn = some cur)
    (hne : m ≠ cur) :
    call_step n fr =
      ({ fr with current_fn := some cur, current_fn_calls := fr.current_fn_calls ++ [m] },
       oCall m) := by
  unfold call_step
  rw [if_pos ht, he]
  simp only [hm, hc, hne, ne_eq, not_false_eq_true, ite_true, ite_false, oCall]

theorem call_step_self (n : CNode) (fr : Frame) (m : String) (ht : n.ty = "call_expression")
    (he : extract_call_name n = some m) (hm : m ≠ "") (hc : fr.current_fn = some m) :
    call_step n fr =
      (analyze_self_call n
        { fr with current_fn := some m, current_fn_calls := fr.current_fn_calls ++ [m],
                  saw_recursive_call := true },
       oCall m) := by
  unfold call_step
  rw [if_pos ht, he]
  simp only [hm, hc, ne_eq, not_false_eq_true, ite_true, eq_self_iff_true, oCall]

/-- The node's own contribution to the `calls` array. -/
def call_out (n : CNode) : List String :=
  if n.ty = "call_expression" then
    match extract_call_name n with
    | some nm => if nm ≠ "" then [nm] else []
    | none => []
  else []

theorem all_calls_eq (t tx : String) (ch : List (Option String × CNode)) :
    all_calls (.node t tx ch) = call_out (.node t tx ch) ++ all_calls_list ch := by
  rw [all_calls]
  rfl

theorem call_step_calls (n : CNode) (fr : Frame) :
    (call_step n fr).2.calls = call_out n ∧
    (call_step n fr).2.functions = [] ∧
    (call_step n fr).2.recs = [] := by
  unfold call_step call_out
  repeat' split
  all_goals exact ⟨rfl, rfl, rfl⟩

theorem call_step_frame (n : CNode) (fr : Frame) :
    (call_step n fr).1.current_fn = fr.current_fn ∧
    (call_step n fr).1.aliases = fr.aliases := by
  unfold call_step
  repeat' split
  all_goals try exact ⟨rfl, rfl⟩
  all_goals
    obtain ⟨h1, _, _, _, h5⟩ := asc_fields n _
    exact ⟨h1.trans rfl, h5.trans rfl⟩

theorem tc_loopgen (t tx : String) (ch : List (Option String × CNode)) (fr fr3 : Frame)
    (out1 : Out)
    (h1 : ¬ t = "function_definition") (h2 : t = "for_statement" ∨ t = "while_statement")
    (hw : traverse_list ch { loop_enter fr with loop_depth := (loop_enter fr).loop_depth + 1 } =
      (fr3, out1)) :
    traverse_collect (.node t tx ch) fr =
      ({ fr3 with loop_depth := fr3.loop_depth - 1 },
       Out.app { loops := [J.obj [("kind", J.s (if t = "for_statement" then "for" else "while")),
                                  ("bound", J.s "n"), ("depth", J.i (fr.loop_depth + 1))]],
                 calls := [], functions := [], recs := [] } out1) := by
  rw [traverse_collect, if_neg h1, if_pos h2]
  simp only [hw]

theorem tc_default (t tx : String) (ch : List (Option String × CNode)) (fr fr2 fr5 : Frame)
    (out0 out1 : Out)
    (h1 : ¬ t = "function_definition") (h2 : ¬ (t = "for_statement" ∨ t = "while_statement"))
    (hs : call_step (.node t tx ch) (alias_step (.node t tx ch) fr) = (fr2, out0))
    (hw : traverse_list ch fr2 = (fr5, out1)) :
    traverse_collect (.node t tx ch) fr = (fr5, out0.app out1) := by
  rw [traverse_collect, if_neg h1, if_neg h2]
  simp only [hs, hw]

/-! ## Global walker invariants: `current_fn`, and the `functions`, `recurrences`
and `calls` outputs, over an arbitrary tree -/

mutual
theorem walk_out (n : CNode) (fr : Frame) :
    (traverse_collect n fr).1.current_fn = (if has_fn_def n then none else fr.current_fn) ∧
    (traverse_collect n fr).2.functions = (good_defs n).map record_of ∧
    (traverse_collect n fr).2.recs =
      ((good_defs n).filter (fun p => (final_frame p.1 p.2).saw_recursive_call)).map
        (fun p => J.obj (mk_top_entry p.1 (final_frame p.1 p.2))) ∧
    (traverse_collect n fr).2.calls = all_calls n := by
  match n with
  | .node t tx ch =>
    by_cases h1 : t = "function_definition"
    · subst h1
      rcases hW : traverse_list ch (choose_size_param (CNode.node "function_definition" tx ch)
          (enter_function (extract_function_name_from_definition
            (CNode.node "function_definition" tx ch)))) with ⟨fr3, out1⟩
      have IH := walk_out_list ch (choose_size_param (CNode.node "function_definition" tx ch)
          (enter_function (extract_function_name_from_definition
            (CNode.node "function_definition" tx ch))))
      rw [hW] at IH
      dsimp only at IH
      obtain ⟨ihcur, ihfun, ihrec, ihcal⟩ := IH
      have hcur2 : (choose_size_param (CNode.node "function_definition" tx ch)
          (enter_function (extract_function_name_from_definition
            (CNode.node "function_definition" tx ch)))).current_fn =
          extract_function_name_from_definition (CNode.node "function_definition" tx ch) := by
        obtain ⟨i, p, hcs⟩ := choose_size_param_shape (CNode.node "function_definition" tx ch)
          (enter_function (extract_function_name_from_definition
            (CNode.node "function_definition" tx ch)))
        rw [hcs]
        rfl
      rw [hcur2] at ihcur
      by_cases hnest : has_fn_def_list ch = true
      · rw [if_pos hnest] at ihcur
        rw [tc_fndef tx ch fr _ fr3 fr3 out1 Out.empty _ rfl rfl hW
          (leave_function_none fr3 ihcur)]
        refine ⟨?_, ?_, ?_, ?_⟩
        · simp [has_fn_def, ihcur]
        · rw [out_app_empty_right]
          cases hnm : extract_function_name_from_definition
              (CNode.node "function_definition" tx ch) <;>
            simp [good_defs, hnest, ihfun, hnm]
        · rw [out_app_empty_right]
          cases hnm : extract_function_name_from_definition
              (CNode.node "function_definition" tx ch) <;>
            simp [good_defs, hnest, ihrec, hnm]
        · rw [out_app_empty_right, ihcal, all_calls_eq]
          simp [call_out, CNode.ty]
      · rw [if_neg hnest] at ihcur
        cases hnm : extract_function_name_from_definition
            (CNode.node "function_definition" tx ch) with
        | none =>
          rw [hnm] at ihcur
          rw [tc_fndef tx ch fr _ fr3 fr3 out1 Out.empty _ rfl rfl hW
            (leave_function_none fr3 ihcur)]
          refine ⟨?_, ?_, ?_, ?_⟩
          · simp [has_fn_def, ihcur]
          · rw [out_app_empty_right]
            simp [good_defs, hnest, ihfun, hnm]
          · rw [out_app_empty_right]
            simp [good_defs, hnest, ihrec, hnm]
          · rw [out_app_empty_right, ihcal, all_calls_eq]
            simp [call_out, CNode.ty]
        | some nm =>
          rw [hnm] at ihcur
          rw [tc_fndef tx ch fr _ fr3 _ out1 _ _ rfl rfl hW
            (leave_function_some fr3 nm ihcur)]
          have hff : final_frame nm (CNode.node "function_definition" tx ch) = fr3 := by
            unfold final_frame
            simp only [CNode.children]
            rw [← hnm, hW]
          refine ⟨?_, ?_, ?_, ?_⟩
          · simp [has_fn_def]
          · simp [good_defs, hnm, hnest, Out.app, ihfun, record_of, hff]
          · by_cases hsaw : fr3.saw_recursive_call = true <;>
              simp [good_defs, hnm, hnest, Out.app, ihrec, hff, hsaw, List.filter_append]
          · rw [all_calls_eq]
            simp [Out.app, ihcal, call_out, CNode.ty]
    · by_cases h2 : t = "for_statement" ∨ t = "while_statement"
      · rcases hW : traverse_list ch
            { loop_enter fr with loop_depth := (loop_enter fr).loop_depth + 1 } with ⟨fr3, out1⟩
        have IH := walk_out_list ch
          { loop_enter fr with loop_depth := (loop_enter fr).loop_depth + 1 }
        rw [hW] at IH
        dsimp only at IH
        obtain ⟨ihcur, ihfun, ihrec, ihcal⟩ := IH
        obtain ⟨lc, mld, hle⟩ := loop_enter_shape fr
        have hcur2 : ({ loop_enter fr with
            loop_depth := (loop_enter fr).loop_depth + 1 } : Frame).current_fn =
            fr.current_fn := by
          rw [hle]
        rw [hcur2] at ihcur
        have hTc : ¬ t = "call_expression" := by
          rcases h2 with h2 | h2 <;> subst h2 <;> decide
        rw [tc_loopgen t tx ch fr fr3 out1 h1 h2 hW]
        refine ⟨?_, ?_, ?_, ?_⟩
        · simp [has_fn_def, h1, ihcur]
        · simp [good_defs, h1, Out.app, ihfun]
        · simp [good_defs, h1, Out.app, ihrec]
        · rw [all_calls_eq]
          have hco : call_out (.node t tx ch) = [] := by
            unfold call_out
            simp only [CNode.ty]
            rw [if_neg hTc]
          simp [Out.app, ihcal, hco]
      · rcases hS : call_step (.node t tx ch) (alias_step (.node t tx ch) fr) with ⟨fr2, out0⟩
        rcases hW : traverse_list ch fr2 with ⟨fr5, out1⟩
        have IH := walk_out_list ch fr2
        rw [hW] at IH
        dsimp only at IH
        obtain ⟨ihcur, ihfun, ihrec, ihcal⟩ := IH
        have hfr2cur : fr2.current_fn = fr.current_fn := by
          obtain ⟨al, hal⟩ := alias_step_shape (.node t tx ch) fr
          obtain ⟨hc, _⟩ := call_step_frame (.node t tx ch) (alias_step (.node t tx ch) fr)
          rw [hS, hal] at hc
          exact hc
        have hout := call_step_calls (.node t tx ch) (alias_step (.node t tx ch) fr)
        rw [hS] at hout
        have hc0 : out0.calls = call_out (.node t tx ch) := hout.1
        have hf0 : out0.functions = [] := hout.2.1
        have hr0 : out0.recs = [] := hout.2.2
        rw [tc_default t tx ch fr fr2 fr5 out0 out1 h1 h2 hS hW]
        refine ⟨?_, ?_, ?_, ?_⟩
        · rw [ihcur, hfr2cur]
          simp [has_fn_def, h1]
        · simp [Out.app, hf0, ihfun, good_defs, h1]
        · simp [Out.app, hr0, ihrec, good_defs, h1]
        · rw [all_calls_eq]
          simp [Out.app, hc0, ihcal]
theorem walk_out_list (l : List (Option String × CNode)) (fr : Frame) :
    (traverse_list l fr).1.current_fn =
      (if has_fn_def_list l then none else fr.current_fn) ∧
    (traverse_list l fr).2.functions = (good_defs_list l).map record_of ∧
    (traverse_list l fr).2.recs =
      ((good_defs_list l).filter (fun p => (final_frame p.1 p.2).saw_recursive_call)).map
        (fun p => J.obj (mk_top_entry p.1 (final_frame p.1 p.2))) ∧
    (traverse_list l fr).2.calls = all_calls_list l := by
  match l with
  | [] =>
    rw [tl_nil]
    exact ⟨by simp [has_fn_def_list], rfl, rfl, rfl⟩
  | (f, c) :: r =>
    rcases hC : traverse_collect c fr with ⟨fr1, o1⟩
    rcases hR : traverse_list r fr1 with ⟨fr2, o2⟩
    have IH1 := walk_out c fr
    have IH2 := walk_out_list r fr1
    rw [hC] at IH1
    rw [hR] at IH2
    dsimp only at IH1
    dsimp only at IH2
    obtain ⟨c1, f1, r1, l1⟩ := IH1
    obtain ⟨c2, f2, r2, l2⟩ := IH2
    rw [tl_cons f c r fr fr1 fr2 o1 o2 hC hR]
    refine ⟨?_, ?_, ?_, ?_⟩
    · rw [c2, c1]
      by_cases hc3 : has_fn_def c = true <;> by_cases hr3 : has_fn_def_list r = true <;>
        simp [has_fn_def_list, hc3, hr3]
    · simp [Out.app, f1, f2, good_defs_list]
    · simp [Out.app, r1, r2, good_defs_list, List.filter_append]
    · simp [Out.app, l1, l2, all_calls_list]
end

/-! ## Frame bookkeeping inside a single function body (no nested definitions) -/

mutual
theorem walk_frame (n : CNode) (fr : Frame) (nm : String)
    (hno : has_fn_def n = false) (hcur : fr.current_fn = some nm) :
    (traverse_collect n fr).1.current_fn = some nm ∧
    (traverse_collect n fr).1.self_calls_a =
      fr.self_calls_a + (self_site_count_ne nm n : Int) ∧
    (traverse_collect n fr).1.saw_recursive_call =
      (fr.saw_recursive_call || decide (0 < self_site_count_ne nm n)) ∧
    (traverse_collect n fr).1.current_fn_calls = fr.current_fn_calls ++ all_calls n := by
  match n with
  | .node t tx ch =>
    rw [has_fn_def, Bool.or_eq_false_iff] at hno
    obtain ⟨h1b, hnoL⟩ := hno
    have h1 : ¬ t = "function_definition" := by simpa using h1b
    by_cases h2 : t = "for_statement" ∨ t = "while_statement"
    · obtain ⟨lc, mld, hle⟩ := loop_enter_shape fr
      have hTc : ¬ t = "call_expression" := by
        rcases h2 with h2 | h2 <;> subst h2 <;> decide
      have hstart : ({ loop_enter fr with
          loop_depth := (loop_enter fr).loop_depth + 1 } : Frame).current_fn = some nm := by
        rw [hle]
        exact hcur
      rcases hW : traverse_list ch
          { loop_enter fr with loop_depth := (loop_enter fr).loop_depth + 1 } with ⟨fr3, out1⟩
      have IH := walk_frame_list ch
        { loop_enter fr with loop_depth := (loop_enter fr).loop_depth + 1 } nm hnoL hstart
      rw [hW] at IH
      simp only [hle] at IH
      obtain ⟨i1, i2, i3, i4⟩ := IH
      have hcnt : self_site_count_ne nm (.node t tx ch) = self_site_count_ne_list nm ch := by
        rw [self_site_count_ne, if_neg (fun hh => hTc hh.1)]
        exact Nat.zero_add _
      have hco : call_out (.node t tx ch) = [] := by
        unfold call_out
        simp only [CNode.ty]
        rw [if_neg hTc]
      rw [tc_loopgen t tx ch fr fr3 out1 h1 h2 hW]
      refine ⟨i1, ?_, ?_, ?_⟩
      · rw [hcnt]
        exact i2
      · rw [hcnt]
        exact i3
      · rw [all_calls_eq, hco, List.nil_append]
        exact i4
    · obtain ⟨al, hal⟩ := alias_step_shape (.node t tx ch) fr
      by_cases hcall : t = "call_expression"
      · rcases hEx : extract_call_name (.node t tx ch) with _ | m
        · have hstep : call_step (.node t tx ch) (alias_step (.node t tx ch) fr) =
              ({ fr with aliases := al }, Out.empty) := by
            rw [hal]
            exact call_step_noname _ _ hcall hEx
          rcases hW : traverse_list ch ({ fr with aliases := al } : Frame) with ⟨fr5, out1⟩
          have IH := walk_frame_list ch { fr with aliases := al } nm hnoL hcur
          rw [hW] at IH
          dsimp only at IH
          obtain ⟨i1, i2, i3, i4⟩ := IH
          have hcnt : self_site_count_ne nm (.node t tx ch) = self_site_count_ne_list nm ch := by
            rw [self_site_count_ne,
              if_neg (fun hh => Option.noConfusion (hEx.symm.trans hh.2.1))]
            exact Nat.zero_add _
          have hco : call_out (.node t tx ch) = [] := by
            unfold call_out
            simp only [CNode.ty]
            rw [if_pos hcall, hEx]
          rw [tc_default t tx ch fr _ fr5 _ out1 h1 h2 hstep hW]
          refine ⟨i1, ?_, ?_, ?_⟩
          · rw [hcnt]
            exact i2
          · rw [hcnt]
            exact i3
          · rw [all_calls_eq, hco, List.nil_append]
            exact i4
        · by_cases hm : m = ""
          · subst hm
            have hstep : call_step (.node t tx ch) (alias_step (.node t tx ch) fr) =
                ({ fr with aliases := al }, Out.empty) := by
              rw [hal]
              exact call_step_anon _ _ hcall hEx
            rcases hW : traverse_list ch ({ fr with aliases := al } : Frame) with ⟨fr5, out1⟩
            have IH := walk_frame_list ch { fr with aliases := al } nm hnoL hcur
            rw [hW] at IH
            dsimp only at IH
            obtain ⟨i1, i2, i3, i4⟩ := IH
            have hcnt : self_site_count_ne nm (.node t tx ch) =
                self_site_count_ne_list nm ch := by
              rw [self_site_count_ne,
                if_neg (fun hh => hh.2.2 (Option.some.inj (hEx.symm.trans hh.2.1)).symm)]
              exact Nat.zero_add _
            have hco : call_out (.node t tx ch) = [] := by
              unfold call_out
              simp only [CNode.ty]
              rw [if_pos hcall, hEx]
              simp
            rw [tc_default t tx ch fr _ fr5 _ out1 h1 h2 hstep hW]
            refine ⟨i1, ?_, ?_, ?_⟩
            · rw [hcnt]
              exact i2
            · rw [hcnt]
              exact i3
            · rw [all_calls_eq, hco, List.nil_append]
              exact i4
          · by_cases hmn : m = nm
            · subst hmn
              have hstep : call_step (.node t tx ch) (alias_step (.node t tx ch) fr) =
                  (analyze_self_call (.node t tx ch)
                    { fr with current_fn := some m,
                              current_fn_calls := fr.current_fn_calls ++ [m],
                              aliases := al, saw_recursive_call := true },
                   oCall m) := by
                rw [hal]
                exact call_step_self _ _ m hcall hEx hm hcur
              obtain ⟨a1, a2, a3, a4, a5⟩ := asc_fields (.node t tx ch)
                { fr with current_fn := some m, current_fn_calls := fr.current_fn_calls ++ [m],
                          aliases := al, saw_recursive_call := true }
              have hstart : (analyze_self_call (.node t tx ch)
                  { fr with current_fn := some m,
                            current_fn_calls := fr.current_fn_calls ++ [m],
                            aliases := al, saw_recursive_call := true }).current_fn = some m := by
                rw [a1]
              rcases hW : traverse_list ch (analyze_self_call (.node t tx ch)
                  { fr with current_fn := some m,
                            current_fn_calls := fr.current_fn_calls ++ [m],
                            aliases := al, saw_recursive_call := true }) with ⟨fr5, out1⟩
              have IH := walk_frame_list ch (analyze_self_call (.node t tx ch)
                { fr with current_fn := some m,
                          current_fn_calls := fr.current_fn_calls ++ [m],
                          aliases := al, saw_recursive_call := true }) m hnoL hstart
              rw [hW] at IH
              dsimp only at IH
              obtain ⟨i1, i2, i3, i4⟩ := IH
              rw [a2] at i3
              rw [a3] at i4
              rw [a4] at i2
              dsimp only at i2 i3 i4
              have hcnt : self_site_count_ne m (.node t tx ch) =
                  1 + self_site_count_ne_list m ch := by
                rw [self_site_count_ne, if_pos ⟨hcall, hEx, hm⟩]
              have hco : call_out (.node t tx ch) = [m] := by
                unfold call_out
                simp only [CNode.ty]
                rw [if_pos hcall, hEx]
                simp [hm]
              rw [tc_default t tx ch fr _ fr5 _ out1 h1 h2 hstep hW]
              refine ⟨i1, ?_, ?_, ?_⟩
              · rw [hcnt, i2]
                push_cast
                ring
              · rw [hcnt, i3]
                have hpos : 0 < 1 + self_site_count_ne_list m ch := by omega
                simp [hpos]
              · rw [all_calls_eq, hco, i4, List.append_assoc]
            · have hstep : call_step (.node t tx ch) (alias_step (.node t tx ch) fr) =
                  ({ fr with current_fn := some nm,
                             current_fn_calls := fr.current_fn_calls ++ [m],
                             aliases := al },
                   oCall m) := by
                rw [hal]
                exact call_step_other _ _ m nm hcall hEx hm hcur hmn
              rcases hW : traverse_list ch
                  ({ fr with current_fn := some nm,
                             current_fn_calls := fr.current_fn_calls ++ [m],
                             aliases := al } : Frame) with ⟨fr5, out1⟩
              have IH := walk_frame_list ch
                { fr with current_fn := some nm,
                          current_fn_calls := fr.current_fn_calls ++ [m],
                          aliases := al } nm hnoL rfl
              rw [hW] at IH
              dsimp only at IH
              obtain ⟨i1, i2, i3, i4⟩ := IH
              have hcnt : self_site_count_ne nm (.node t tx ch) =
                  self_site_count_ne_list nm ch := by
                rw [self_site_count_ne,
                  if_neg (fun hh => hmn (Option.some.inj (hEx.symm.trans hh.2.1)))]
                exact Nat.zero_add _
              have hco : call_out (.node t tx ch) = [m] := by
                unfold call_out
                simp only [CNode.ty]
                rw [if_pos hcall, hEx]
                simp [hm]
              rw [tc_default t tx ch fr _ fr5 _ out1 h1 h2 hstep hW]
              refine ⟨i1, ?_, ?_, ?_⟩
              · rw [hcnt]
                exact i2
              · rw [hcnt]
                exact i3
              · rw [all_calls_eq, hco, i4, List.append_assoc]
      · have hstep : call_step (.node t tx ch) (alias_step (.node t tx ch) fr) =
            ({ fr with aliases := al }, Out.empty) := by
          rw [hal]
          exact call_step_not _ _ hcall
        rcases hW : traverse_list ch ({ fr with aliases := al } : Frame) with ⟨fr5, out1⟩
        have IH := walk_frame_list ch { fr with aliases := al } nm hnoL hcur
        rw [hW] at IH
        dsimp only at IH
        obtain ⟨i1, i2, i3, i4⟩ := IH
        have hcnt : self_site_count_ne nm (.node t tx ch) = self_site_count_ne_list nm ch := by
          rw [self_site_count_ne, if_neg (fun hh => hcall hh.1)]
          exact Nat.zero_add _
        have hco : call_out (.node t tx ch) = [] := by
          unfold call_out
          simp only [CNode.ty]
          rw [if_neg hcall]
        rw [tc_default t tx ch fr _ fr5 _ out1 h1 h2 hstep hW]
        refine ⟨i1, ?_, ?_, ?_⟩
        · rw [hcnt]
          exact i2
        · rw [hcnt]
          exact i3
        · rw [all_calls_eq, hco, List.nil_append]
          exact i4
theorem walk_frame_list (l : List (Option String × CNode)) (fr : Frame) (nm : String)
    (hno : has_fn_def_list l = false) (hcur : fr.current_fn = some nm) :
    (traverse_list l fr).1.current_fn = some nm ∧
    (traverse_list l fr).1.self_calls_a =
      fr.self_calls_a + (self_site_count_ne_list nm l : Int) ∧
    (traverse_list l fr).1.saw_recursive_call =
      (fr.saw_recursive_call || decide (0 < self_site_count_ne_list nm l)) ∧
    (traverse_list l fr).1.current_fn_calls = fr.current_fn_calls ++ all_calls_list l := by
  match l with
  | [] =>
    rw [tl_nil]
    refine ⟨hcur, by simp [self_site_count_ne_list], ?_, by simp [all_calls_list]⟩
    simp [self_site_count_ne_list]
  | (f, c) :: r =>
    rw [has_fn_def_list, Bool.or_eq_false_iff] at hno
    obtain ⟨hnc, hnr⟩ := hno
    rcases hC : traverse_collect c fr with ⟨fr1, o1⟩
    rcases hR : traverse_list r fr1 with ⟨fr2, o2⟩
    have IH1 := walk_frame c fr nm hnc hcur
    rw [hC] at IH1
    dsimp only at IH1
    obtain ⟨c1, c2, c3, c4⟩ := IH1
    have IH2 := walk_frame_list r fr1 nm hnr c1
    rw [hR] at IH2
    dsimp only at IH2
    obtain ⟨d1, d2, d3, d4⟩ := IH2
    rw [tl_cons f c r fr fr1 fr2 o1 o2 hC hR]
    refine ⟨d1, ?_, ?_, ?_⟩
    · rw [self_site_count_ne_list, d2, c2]
      push_cast
      ring
    · rw [self_site_count_ne_list, d3, c3]
      by_cases hc0 : 0 < self_site_count_ne nm c <;>
        by_cases hr0 : 0 < self_site_count_ne_list nm r <;>
          simp [hc0, hr0]
    · rw [all_calls_list, d4, c4, List.append_assoc]
end

/-! ## The alias table never stores a `>>` (shift) entry -/

theorem alias_apply_kind (r : cls_result) (e : AliasEntry) :
    (alias_apply r e).kind = .al_divide ∨ (alias_apply r e).kind = .al_dec ∨
      (alias_apply r e).kind = e.kind := by
  unfold alias_apply
  split
  · exact Or.inl rfl
  split
  · exact Or.inr (Or.inl rfl)
  · exact Or.inr (Or.inr rfl)

theorem get_or_add_noshr (T : List AliasEntry) (nm : String) (f : AliasEntry → AliasEntry)
    (hT : no_shr T = true)
    (hf : ∀ e : AliasEntry, ¬ e.kind = .al_shr → ¬ (f e).kind = .al_shr) :
    no_shr (alias_get_or_add_then T nm f) = true := by
  induction T with
  | nil =>
    simp only [alias_get_or_add_then, no_shr, List.all_cons, List.all_nil, Bool.and_true]
    simpa using hf { name := nm, kind := .al_none, k := 0 } (by simp)
  | cons e r ih =>
    simp only [no_shr, List.all_cons, Bool.and_eq_true] at hT
    obtain ⟨he, hr⟩ := hT
    simp only [alias_get_or_add_then]
    split
    · simp only [no_shr, List.all_cons, Bool.and_eq_true]
      refine ⟨?_, hr⟩
      simpa using hf e (by simpa using he)
    · simp only [no_shr, List.all_cons, Bool.and_eq_true]
      exact ⟨he, ih hr⟩

theorem maybe_record_alias_noshr (n : CNode) (p : String) (T : List AliasEntry)
    (hT : no_shr T = true) : no_shr (maybe_record_alias n p T) = true := by
  unfold maybe_record_alias
  repeat' split
  all_goals try exact hT
  all_goals dsimp only
  all_goals repeat' split
  all_goals try exact hT
  all_goals
    refine get_or_add_noshr _ _ _ hT (fun e he => ?_)
    rcases alias_apply_kind (analyze_expr_wrt_param _ _ cls0) e with h | h | h <;>
      rw [h] <;> simp_all

theorem alias_step_noshr (n : CNode) (fr : Frame) (h : no_shr fr.aliases = true) :
    no_shr (alias_step n fr).aliases = true := by
  unfold alias_step
  split
  · split
    · exact maybe_record_alias_noshr _ _ _ h
    · exact h
  · exact h

mutual
theorem walk_noshr (n : CNode) (fr : Frame) (h : no_shr fr.aliases = true) :
    no_shr (traverse_collect n fr).1.aliases = true := by
  match n with
  | .node t tx ch =>
    by_cases h1 : t = "function_definition"
    · subst h1
      rcases hW : traverse_list ch (choose_size_param (CNode.node "function_definition" tx ch)
          (enter_function (extract_function_name_from_definition
            (CNode.node "function_definition" tx ch)))) with ⟨fr3, out1⟩
      have h2 : no_shr (choose_size_param (CNode.node "function_definition" tx ch)
          (enter_function (extract_function_name_from_definition
            (CNode.node "function_definition" tx ch)))).aliases = true := by
        obtain ⟨i, p, hcs⟩ := choose_size_param_shape (CNode.node "function_definition" tx ch)
          (enter_function (extract_function_name_from_definition
            (CNode.node "function_definition" tx ch)))
        rw [hcs]
        rfl
      have IH := walk_noshr_list ch _ h2
      rw [hW] at IH
      dsimp only at IH
      rcases hL : leave_function fr3 with ⟨fr4, out2⟩
      rcases hc : fr3.current_fn with _ | nm
      · rw [leave_function_none fr3 hc] at hL
        cases hL
        rw [tc_fndef tx ch fr _ fr3 fr3 out1 Out.empty _ rfl rfl hW (leave_function_none fr3 hc)]
        exact IH
      · rw [leave_function_some fr3 nm hc] at hL
        rw [tc_fndef tx ch fr _ fr3 _ out1 _ _ rfl rfl hW (leave_function_some fr3 nm hc)]
        rfl
    · by_cases h2 : t = "for_statement" ∨ t = "while_statement"
      · obtain ⟨lc, mld, hle⟩ := loop_enter_shape fr
        have h3 : no_shr ({ loop_enter fr with
            loop_depth := (loop_enter fr).loop_depth + 1 } : Frame).aliases = true := by
          rw [hle]
          exact h
        rcases hW : traverse_list ch
            { loop_enter fr with loop_depth := (loop_enter fr).loop_depth + 1 } with ⟨fr3, out1⟩
        have IH := walk_noshr_list ch _ h3
        rw [hW] at IH
        dsimp only at IH
        rw [tc_loopgen t tx ch fr fr3 out1 h1 h2 hW]
        exact IH
      · rcases hS : call_step (.node t tx ch) (alias_step (.node t tx ch) fr) with ⟨fr2, out0⟩
        have h3 : no_shr fr2.aliases = true := by
          obtain ⟨hcs, hals⟩ := call_step_frame (.node t tx ch) (alias_step (.node t tx ch) fr)
          rw [hS] at hals
          dsimp only at hals
          rw [hals]
          exact alias_step_noshr _ _ h
        rcases hW : traverse_list ch fr2 with ⟨fr5, out1⟩
        have IH := walk_noshr_list ch fr2 h3
        rw [hW] at IH
        dsimp only at IH
        rw [tc_default t tx ch fr fr2 fr5 out0 out1 h1 h2 hS hW]
        exact IH
theorem walk_noshr_list (l : List (Option String × CNode)) (fr : Frame)
    (h : no_shr fr.aliases = true) :
    no_shr (traverse_list l fr).1.aliases = true := by
  match l with
  | [] =>
    rw [tl_nil]
    exact h
  | (f, c) :: r =>
    rcases hC : traverse_collect c fr with ⟨fr1, o1⟩
    rcases hR : traverse_list r fr1 with ⟨fr2, o2⟩
    have IH1 := walk_noshr c fr h
    rw [hC] at IH1
    dsimp only at IH1
    have IH2 := walk_noshr_list r fr1 IH1
    rw [hR] at IH2
    dsimp only at IH2
    rw [tl_cons f c r fr fr1 fr2 o1 o2 hC hR]
    exact IH2
end

/-! ## Counting lemmas -/

mutual
theorem count_ne_eq (nm : String) (hnm : nm ≠ "") (n : CNode) :
    self_site_count nm n = self_site_count_ne nm n := by
  match n with
  | .node t tx ch =>
    rw [self_site_count, self_site_count_ne, count_ne_eq_list nm hnm ch]
    congr 1
    by_cases hcond : t = "call_expression" ∧ extract_call_name (.node t tx ch) = some nm
    · rw [if_pos hcond, if_pos ⟨hcond.1, hcond.2, hnm⟩]
    · rw [if_neg hcond, if_neg (fun hh => hcond ⟨hh.1, hh.2.1⟩)]
theorem count_ne_eq_list (nm : String) (hnm : nm ≠ "") (l : List (Option String × CNode)) :
    self_site_count_list nm l = self_site_count_ne_list nm l := by
  match l with
  | [] => rfl
  | (f, c) :: r =>
    rw [self_site_count_list, self_site_count_ne_list, count_ne_eq nm hnm c,
      count_ne_eq_list nm hnm r]
end

mutual
theorem count_ne_empty (n : CNode) : self_site_count_ne "" n = 0 := by
  match n with
  | .node t tx ch =>
    rw [self_site_count_ne, count_ne_empty_list ch, if_neg (fun hh => hh.2.2 rfl)]
theorem count_ne_empty_list (l : List (Option String × CNode)) :
    self_site_count_ne_list "" l = 0 := by
  match l with
  | [] => rfl
  | (f, c) :: r =>
    rw [self_site_count_ne_list, count_ne_empty c, count_ne_empty_list r]
end

/-! ## Membership facts about `good_defs` -/

mutual
theorem good_defs_spec (n : CNode) :
    ∀ p ∈ good_defs n, p.2.ty = "function_definition" ∧
      extract_function_name_from_definition p.2 = some p.1 ∧
      has_fn_def_list p.2.children = false := by
  match n with
  | .node t tx ch =>
    intro p hp
    rw [good_defs] at hp
    by_cases h1 : t = "function_definition"
    · rw [if_pos h1] at hp
      rcases List.mem_append.mp hp with hp | hp
      · exact good_defs_spec_list ch p hp
      · rcases hnm : extract_function_name_from_definition (.node t tx ch) with _ | nm
        · rw [hnm] at hp
          simp at hp
        · rw [hnm] at hp
          dsimp only at hp
          by_cases hnest : has_fn_def_list ch = true
          · rw [if_pos hnest] at hp
            simp at hp
          · rw [if_neg hnest] at hp
            simp at hp
            subst hp
            exact ⟨h1, hnm, by simpa using hnest⟩
    · rw [if_neg h1] at hp
      exact good_defs_spec_list ch p hp
theorem good_defs_spec_list (l : List (Option String × CNode)) :
    ∀ p ∈ good_defs_list l, p.2.ty = "function_definition" ∧
      extract_function_name_from_definition p.2 = some p.1 ∧
      has_fn_def_list p.2.children = false := by
  match l with
  | [] =>
    intro p hp
    simp [good_defs_list] at hp
  | (f, c) :: r =>
    intro p hp
    rw [good_defs_list] at hp
    rcases List.mem_append.mp hp with hp | hp
    · exact good_defs_spec c p hp
    · exact good_defs_spec_list r p hp
end

/-! ## `parse_code` output plumbing -/

theorem filterMap_jstr (l : List String) : (l.map J.s).filterMap jstr_value = l := by
  induction l with
  | nil => rfl
  | cons a r ih => simp [jstr_value, ih]

theorem parse_summary_c (code : String) (root : CNode) (h : ¬ code = "") :
    (parse_code (some "c") code root).summary =
      conv_field
        [("loops", J.arr (traverse_collect root frame0).2.loops),
         ("calls", J.arr ((traverse_collect root frame0).2.calls.map J.s)),
         ("functions", J.arr (traverse_collect root frame0).2.functions),
         ("recurrences", J.arr (traverse_collect root frame0).2.recs)]
        (traverse_collect root frame0).2.recs := by
  unfold parse_code
  dsimp only
  rw [if_neg h, if_pos rfl]

theorem parse_summary_other (language : Option String) (code : String) (root : CNode)
    (h : (∀ l, language = some l → ¬ l = "c") ∨ code = "") :
    (parse_code language code root).summary =
      [("loops", J.arr []), ("calls", J.arr []), ("functions", J.arr []),
       ("recurrences", J.arr [])] := by
  rcases language with _ | lang
  · rfl
  · by_cases hc : code = ""
    · unfold parse_code
      dsimp only
      rw [if_pos hc]
    · have hl : ¬ lang = "c" := (h.resolve_right hc) lang rfl
      unfold parse_code
      dsimp only
      rw [if_neg hc, if_neg hl]
      rfl

theorem conv_field_other (s : JObj) (recs : List J) (k : String) (hk : ¬ k = "recurrence") :
    jget (conv_field s recs) k = jget s k := by
  unfold conv_field
  repeat' split
  all_goals try rfl
  exact jget_jset_ne s "recurrence" k _ (fun hh => hk hh.symm)

theorem conv_field_recurrence (s : JObj) (recs : List J) (h0 : jget s "recurrence" = none) :
    jget (conv_field s recs) "recurrence" =
      (match recs with
       | [e] =>
         if divide_entry e then
           some (J.obj (jset_opt (jset_opt (jset_opt [] "a" (jget_j e "a")) "b" (jget_j e "b"))
             "f" (jget_j e "f")))
         else none
       | _ => none) := by
  match recs with
  | [] => exact h0
  | e :: e2 :: rest => exact h0
  | [e] =>
    rcases hm : jget_j e "model" with _ | m
    · have hd : divide_entry e = false := by
        unfold divide_entry
        rw [hm]
      unfold conv_field
      dsimp only
      simp only [hm, hd, Bool.false_eq_true, if_false]
      exact h0
    · rcases hb : jget_j e "b" with _ | bv
      · have hd : divide_entry e = false := by
          unfold divide_entry
          rw [hm, hb]
        unfold conv_field
        dsimp only
        simp only [hm, hb, hd, Bool.false_eq_true, if_false]
        exact h0
      · by_cases hcond : jstr_value m = some "divide" ∧ jint_value bv > 1
        · have hd : divide_entry e = true := by
            unfold divide_entry
            rw [hm, hb]
            simp [hcond.1, hcond.2]
          unfold conv_field
          dsimp only
          simp only [hm, hb, hd, if_pos hcond, if_true]
          rw [jget_jset_same]
        · have hd : divide_entry e = false := by
            unfold divide_entry
            rw [hm, hb]
            by_cases hA : jstr_value m = some "divide"
            · have hB : ¬ jint_value bv > 1 := fun hB => hcond ⟨hA, hB⟩
              simp [hA, hB]
            · simp [hA]
          unfold conv_field
          dsimp only
          simp only [hm, hb, if_neg hcond, hd, Bool.false_eq_true, if_false]
          exact h0

theorem summary_recs_c (code : String) (root : CNode) (h : ¬ code = "") :
    summary_recs (parse_code (some "c") code root) = (traverse_collect root frame0).2.recs := by
  unfold summary_recs
  rw [parse_summary_c code root h, conv_field_other _ _ _ (by decide)]
  rfl

theorem summary_functions_c (code : String) (root : CNode) (h : ¬ code = "") :
    summary_functions (parse_code (some "c") code root) =
      (traverse_collect root frame0).2.functions := by
  unfold summary_functions
  rw [parse_summary_c code root h, conv_field_other _ _ _ (by decide)]
  rfl

theorem summary_calls_c (code : String) (root : CNode) (h : ¬ code = "") :
    summary_calls (parse_code (some "c") code root) = (traverse_collect root frame0).2.calls := by
  unfold summary_calls
  rw [parse_summary_c code root h, conv_field_other _ _ _ (by decide)]
  exact filterMap_jstr _

theorem recurrence_field_c (code : String) (root : CNode) (h : ¬ code = "") :
    jget (parse_code (some "c") code root).summary "recurrence" =
      (match (traverse_collect root frame0).2.recs with
       | [e] =>
         if divide_entry e then
           some (J.obj (jset_opt (jset_opt (jset_opt [] "a" (jget_j e "a")) "b" (jget_j e "b"))
             "f" (jget_j e "f")))
         else none
       | _ => none) := by
  rw [parse_summary_c code root h]
  exact conv_field_recurrence _ _ rfl

theorem summary_other_fields (language : Option String) (code : String) (root : CNode)
    (h : (∀ l, language = some l → ¬ l = "c") ∨ code = "") :
    summary_functions (parse_code language code root) = [] ∧
    summary_calls (parse_code language code root) = [] ∧
    summary_recs (parse_code language code root) = [] ∧
    jget (parse_code language code root).summary "recurrence" = none := by
  have hs := parse_summary_other language code root h
  unfold summary_functions summary_calls summary_recs
  rw [hs]
  exact ⟨rfl, rfl, rfl, rfl⟩

/-! ## Folding `consider_divide_b` over the divide values contributed by the
self-calls of one function -/

def consider_fold (fr : Frame) (l : List Int) : Frame :=
  l.foldl consider_divide_b fr

theorem consider_fold_inv (t : List Int) (fr : Frame) (hall : ∀ b ∈ t, 1 < b)
    (hhas : fr.has_divide_b = true) (hgt : 1 < fr.divide_b) :
    (consider_fold fr t).has_divide_b = true ∧
    (consider_fold fr t).divide_b = t.foldl min fr.divide_b ∧
    (consider_fold fr t).b_ambiguous =
      (fr.b_ambiguous || t.any (fun b => b ≠ fr.divide_b)) := by
  induction t generalizing fr with
  | nil => exact ⟨hhas, rfl, by simp [consider_fold]⟩
  | cons b t ih =>
    have hb : 1 < b := hall b (List.mem_cons_self b t)
    have hall2 : ∀ x ∈ t, 1 < x := fun x hx => hall x (List.mem_cons_of_mem _ hx)
    by_cases heq : fr.divide_b = b
    · have hstep : consider_divide_b fr b = fr := by
        unfold consider_divide_b
        rw [if_neg (by omega), if_neg (by simp [hhas]), if_neg (by simp [heq])]
      have hfold : consider_fold fr (b :: t) = consider_fold fr t := by
        unfold consider_fold
        rw [List.foldl_cons, hstep]
      obtain ⟨i1, i2, i3⟩ := ih fr hall2 hhas hgt
      rw [hfold]
      refine ⟨i1, ?_, ?_⟩
      · rw [i2, List.foldl_cons, heq, min_self]
      · rw [i3, List.any_cons]
        simp [heq]
    · have hstep : consider_divide_b fr b =
          { fr with divide_b := if b < fr.divide_b then b else fr.divide_b,
                    b_ambiguous := true } := by
        unfold consider_divide_b
        rw [if_neg (by omega), if_neg (by simp [hhas]), if_pos heq]
      have hm : (if b < fr.divide_b then b else fr.divide_b) = min fr.divide_b b := by
        by_cases hlt : b < fr.divide_b
        · rw [if_pos hlt, min_eq_right hlt.le]
        · rw [if_neg hlt, min_eq_left (by omega)]
      have hfold : consider_fold fr (b :: t) =
          consider_fold { fr with divide_b := if b < fr.divide_b then b else fr.divide_b,
                                  b_ambiguous := true } t := by
        unfold consider_fold
        rw [List.foldl_cons, hstep]
      obtain ⟨i1, i2, i3⟩ := ih
        { fr with divide_b := if b < fr.divide_b then b else fr.divide_b, b_ambiguous := true }
        hall2 hhas (by rw [hm] at *; exact lt_min hgt hb)
      rw [hfold]
      refine ⟨i1, ?_, ?_⟩
      · rw [i2, List.foldl_cons]
        dsimp only
        rw [hm]
      · rw [i3, List.any_cons]
        simp [show b ≠ fr.divide_b from fun hh => heq hh.symm]

theorem foldl_min_mem (t : List Int) (b0 : Int) :
    t.foldl min b0 ∈ b0 :: t ∧ ∀ x ∈ b0 :: t, t.foldl min b0 ≤ x := by
  induction t generalizing b0 with
  | nil =>
    refine ⟨by simp, ?_⟩
    intro x hx
    simp at hx
    rw [hx]
    simp
  | cons c t ih =>
    obtain ⟨ihm, ihle⟩ := ih (min b0 c)
    constructor
    · rw [List.foldl_cons]
      rcases List.mem_cons.mp ihm with hm | hm
      · rcases min_choice b0 c with hbc | hbc
        · rw [hm, hbc]
          exact List.mem_cons_self _ _
        · rw [hm, hbc]
          exact List.mem_cons_of_mem _ (List.mem_cons_self _ _)
      · exact List.mem_cons_of_mem _ (List.mem_cons_of_mem _ hm)
    · intro x hx
      rw [List.foldl_cons]
      rcases List.mem_cons.mp hx with hx | hx
      · rw [hx]
        exact le_trans (ihle _ (List.mem_cons_self _ _)) (min_le_left _ _)
      · rcases List.mem_cons.mp hx with hx2 | hx2
        · rw [hx2]
          exact le_trans (ihle _ (List.mem_cons_self _ _)) (min_le_right _ _)
        · exact ihle x (List.mem_cons_of_mem _ hx2)

theorem any_ne_iff (b0 : Int) (t : List Int) :
    (t.any (fun b => b ≠ b0) = true) ↔ ∃ x ∈ b0 :: t, ∃ y ∈ b0 :: t, x ≠ y := by
  rw [List.any_eq_true]
  simp only [decide_eq_true_eq]
  constructor
  · rintro ⟨x, hx, hne⟩
    exact ⟨x, List.mem_cons_of_mem _ hx, b0, List.mem_cons_self _ _, hne⟩
  · rintro ⟨x, hx, y, hy, hne⟩
    by_contra hno
    push_neg at hno
    have hall : ∀ z ∈ b0 :: t, z = b0 := by
      intro z hz
      rcases List.mem_cons.mp hz with hz | hz
      · exact hz
      · exact hno z hz
    exact hne ((hall x hx).trans (hall y hy).symm)


/-! ## Claim theorems -/

theorem path_split (language : Option String) (code : String)
    (hc : ¬ (language = some "c" ∧ ¬ code = "")) :
    (∀ l, language = some l → ¬ l = "c") ∨ code = "" := by
  by_cases hl : language = some "c"
  · right
    by_contra hcode
    exact hc ⟨hl, hcode⟩
  · left
    intro l hll hlc
    exact hl (by rw [hll, hlc])

/-- C2 (corrected).  For a function whose frame has `saw_recursive_call`, the
record's `recurrence` object is `mk_rec_object`: `a` and `f` are always
present; when a divide value `b > 1` was accumulated the model is `"divide"`
with field `b` and `b_ambiguous` iff flagged, and — contrary to the original
claim — the `c` field written by the decrease branch is NOT removed, so the
record carries both `b` and `c` whenever both accumulators fired; when only a
decrease was accumulated the model is `"decrease"` with field `c`; otherwise
the record is only `{a, f}`.  Divide does take precedence for `model`. -/
theorem claim_C2 (nm : String) (fr : Frame) (hs : fr.saw_recursive_call = true) :
    jget (mk_fn_obj nm fr) "recurrence" = some (J.obj (mk_rec_object fr)) ∧
    jget (mk_rec_object fr) "a" = some (J.i fr.self_calls_a) ∧
    jget (mk_rec_object fr) "f" = some (J.s (f_expr_of_depth fr.max_loop_depth)) ∧
    (fr.has_divide_b = true → fr.divide_b > 1 →
      jget (mk_rec_object fr) "model" = some (J.s "divide") ∧
      jget (mk_rec_object fr) "b" = some (J.i fr.divide_b) ∧
      jget (mk_rec_object fr) "b_ambiguous" =
        (if fr.b_ambiguous then some (J.b true) else none) ∧
      jget (mk_rec_object fr) "c" =
        (if fr.has_decrease then some (J.i fr.decrease_c) else none)) ∧
    (¬ (fr.has_divide_b = true ∧ fr.divide_b > 1) → fr.has_decrease = true →
      jget (mk_rec_object fr) "model" = some (J.s "decrease") ∧
      jget (mk_rec_object fr) "c" = some (J.i fr.decrease_c) ∧
      jget (mk_rec_object fr) "b" = none ∧
      jget (mk_rec_object fr) "b_ambiguous" = none) ∧
    (¬ (fr.has_divide_b = true ∧ fr.divide_b > 1) → fr.has_decrease = false →
      jget (mk_rec_object fr) "model" = none ∧ jget (mk_rec_object fr) "b" = none ∧
      jget (mk_rec_object fr) "c" = none ∧
      jget (mk_rec_object fr) "b_ambiguous" = none) := by
  obtain ⟨ha, hf2, hm, hb, hamb, hc, -⟩ := mk_rec_object_spec fr
  obtain ⟨-, -, hrec⟩ := mk_fn_obj_fields nm fr
  refine ⟨by rw [hrec, if_pos hs], ha, hf2, ?_, ?_, ?_⟩
  · intro h1 h2
    have hcond : fr.has_divide_b = true ∧ fr.divide_b > 1 := ⟨h1, h2⟩
    refine ⟨by rw [hm, if_pos hcond], by rw [hb, if_pos hcond], ?_, hc⟩
    rw [hamb]
    by_cases hA : fr.b_ambiguous = true
    · rw [if_pos ⟨hcond, hA⟩, if_pos hA]
    · rw [if_neg (fun hh => hA hh.2), if_neg hA]
  · intro h1 h2
    exact ⟨by rw [hm, if_neg h1, if_pos h2], by rw [hc, if_pos h2], by rw [hb, if_neg h1],
      by rw [hamb, if_neg (fun hh => h1 hh.1)]⟩
  · intro h1 h2
    exact ⟨by rw [hm, if_neg h1, if_neg (by simp [h2])], by rw [hb, if_neg h1],
      by rw [hc, if_neg (by simp [h2])], by rw [hamb, if_neg (fun hh => h1 hh.1)]⟩

/-- C2 witness: the frame of `h` after both self-calls has both accumulators
set; its record has model `"divide"` with `b = 2` and keeps `c`. -/
theorem claim_C2_witness :
    fr4_h.saw_recursive_call = true ∧
    (jget (mk_rec_object fr4_h) "model" = some (J.s "divide") ∧
     jget (mk_rec_object fr4_h) "b" = some (J.i fr4_h.divide_b) ∧
     jget (mk_rec_object fr4_h) "b_ambiguous" =
       (if fr4_h.b_ambiguous then some (J.b true) else none) ∧
     jget (mk_rec_object fr4_h) "c" =
       (if fr4_h.has_decrease then some (J.i fr4_h.decrease_c) else none)) :=
  ⟨by decide, (claim_C2 "h" fr4_h (by decide)).2.2.2.1 (by decide) (by decide)⟩

/-- C2 counterexample: parsing `c2_tree` (function `h` with self-calls
`h(n/2)` and `h(n-1)`) emits one record whose recurrence object contains BOTH
`b` and `c`, refuting "the record never contains both b and c". -/
theorem claim_C2_cex :
    summary_functions (parse_code (some "c") "x" c2_tree) = [record_h] ∧
    jget_j record_h "recurrence" =
      some (J.obj [("a", J.i 2), ("f", J.s "1"), ("model", J.s "divide"),
        ("c", J.i 1), ("b", J.i 2)]) ∧
    jget [("a", J.i 2), ("f", J.s "1"), ("model", J.s "divide"), ("c", J.i 1), ("b", J.i 2)]
      "b" = some (J.i 2) ∧
    jget [("a", J.i 2), ("f", J.s "1"), ("model", J.s "divide"), ("c", J.i 1), ("b", J.i 2)]
      "c" = some (J.i 1) := by
  refine ⟨?_, rfl, rfl, rfl⟩
  rw [parse_c2]
  rfl

/-- C4 (confirmed).  Folding `consider_divide_b` over the nonempty sequence of
divide values (all `> 1`) contributed by a function's self-calls, starting
from a fresh frame: the accumulated `b` is the minimum of the values,
`b_ambiguous` is raised iff two distinct values appear, and the emitted
recurrence object carries that `b` and carries `b_ambiguous` iff flagged. -/
theorem claim_C4 (fr : Frame) (l : List Int) (hfr : fr.has_divide_b = false)
    (hamb : fr.b_ambiguous = false) (hl : ∀ b ∈ l, 1 < b) (b0 : Int) (t : List Int)
    (hcons : l = b0 :: t) :
    (consider_fold fr l).divide_b ∈ l ∧
    (∀ b ∈ l, (consider_fold fr l).divide_b ≤ b) ∧
    ((consider_fold fr l).b_ambiguous = true ↔ ∃ x ∈ l, ∃ y ∈ l, x ≠ y) ∧
    jget (mk_rec_object (consider_fold fr l)) "b" =
      some (J.i ((consider_fold fr l).divide_b)) ∧
    jget (mk_rec_object (consider_fold fr l)) "b_ambiguous" =
      (if (consider_fold fr l).b_ambiguous then some (J.b true) else none) := by
  subst hcons
  have hb0 : 1 < b0 := hl b0 (List.mem_cons_self b0 t)
  have hstart : consider_divide_b fr b0 = { fr with has_divide_b := true, divide_b := b0 } := by
    unfold consider_divide_b
    rw [if_neg (by omega), if_pos (by simp [hfr])]
  have hfold : consider_fold fr (b0 :: t) =
      consider_fold { fr with has_divide_b := true, divide_b := b0 } t := by
    unfold consider_fold
    rw [List.foldl_cons, hstart]
  obtain ⟨i1, i2, i3⟩ := consider_fold_inv t
    { fr with has_divide_b := true, divide_b := b0 }
    (fun x hx => hl x (List.mem_cons_of_mem _ hx)) rfl hb0
  dsimp only at i2 i3
  obtain ⟨hmem, hle⟩ := foldl_min_mem t b0
  have hball : ∀ x ∈ b0 :: t, 1 < x := by
    intro x hx
    rcases List.mem_cons.mp hx with h | h
    · rw [h]
      exact hb0
    · exact hl x (List.mem_cons_of_mem _ h)
  have hb1 : 1 < t.foldl min b0 := hball _ hmem
  obtain ⟨sa, sf, sm, sb, samb, sc, sfn⟩ :=
    mk_rec_object_spec (consider_fold { fr with has_divide_b := true, divide_b := b0 } t)
  have hcond : (consider_fold { fr with has_divide_b := true, divide_b := b0 } t).has_divide_b
      = true ∧ (consider_fold { fr with has_divide_b := true, divide_b := b0 } t).divide_b > 1 := by
    rw [i2]
    exact ⟨i1, hb1⟩
  refine ⟨?_, ?_, ?_, ?_, ?_⟩
  · rw [hfold, i2]
    exact hmem
  · intro b hb
    rw [hfold, i2]
    exact hle b hb
  · rw [hfold, i3, hamb, Bool.false_or]
    exact any_ne_iff b0 t
  · rw [hfold, sb, if_pos hcond, i2]
  · rw [hfold, samb]
    by_cases hA : (consider_fold { fr with has_divide_b := true, divide_b := b0 } t).b_ambiguous
      = true
    · rw [if_pos ⟨hcond, hA⟩, if_pos hA]
    · rw [if_neg (fun hh => hA hh.2), if_neg hA]

/-- C4 witness: values 2 and 3 yield `b = 2`, `b_ambiguous` raised and both
reflected in the record. -/
theorem claim_C4_witness :
    (consider_fold frame0 [2, 3]).divide_b ∈ [2, 3] ∧
    (∀ b ∈ [2, 3], (consider_fold frame0 [2, 3]).divide_b ≤ b) ∧
    ((consider_fold frame0 [2, 3]).b_ambiguous = true ↔
      ∃ x ∈ ([2, 3] : List Int), ∃ y ∈ ([2, 3] : List Int), x ≠ y) ∧
    jget (mk_rec_object (consider_fold frame0 [2, 3])) "b" =
      some (J.i ((consider_fold frame0 [2, 3]).divide_b)) ∧
    jget (mk_rec_object (consider_fold frame0 [2, 3])) "b_ambiguous" =
      (if (consider_fold frame0 [2, 3]).b_ambiguous then some (J.b true) else none) :=
  claim_C4 frame0 [2, 3] rfl rfl (by decide) 2 [3] rfl

/-- C5 (corrected).  The `>>` rule of the classifier only applies when neither
the `/` rule fires on the preprocessed text (the original claim omitted this
precedence); under that proviso, an expression containing the size parameter
whose first `>>` is followed by text parsing as a positive integer `k`
classifies as a divide with `div_b = pow2_int k`, which is `2^k` for
`1 ≤ k < 30` and `1` (a rejected divide, since only `b > 1` is ever
recorded) for `k ≥ 30`. -/
theorem claim_C5 (e param : List Char) (k : Int)
    (hsub : has_sub param (strip_semi (str_trim e)) = true)
    (hdiv : div_rule_fires (strip_semi (str_trim e)) = false)
    (hshr : (after_shr (strip_semi (str_trim e))).bind parse_pos_int = some k)
    (hk : 0 < k) :
    analyze_expr_wrt_param e param cls0 =
      { has_div := true, div_b := pow2_int k, has_dec := false, dec_c := 0 } ∧
    (k < 30 → pow2_int k = 2 ^ k.toNat) ∧ (30 ≤ k → pow2_int k = 1) := by
  have hshr2 : cls_shr_branch (strip_semi (str_trim e)) cls0 =
      { has_div := true, div_b := pow2_int k, has_dec := false, dec_c := 0 } := by
    rcases hsh : after_shr (strip_semi (str_trim e)) with _ | rest2
    · rw [hsh] at hshr
      exact absurd hshr (by simp)
    · rw [hsh] at hshr
      simp only [Option.some_bind] at hshr
      unfold cls_shr_branch
      simp only [hsh, hshr]
      rw [if_pos hk]
      rfl
  have hmain : analyze_expr_wrt_param e param cls0 =
      { has_div := true, div_b := pow2_int k, has_dec := false, dec_c := 0 } := by
    unfold analyze_expr_wrt_param
    rw [if_neg (fun hh => hh hsub)]
    unfold div_rule_fires at hdiv
    rcases hslash : after_char '/' (strip_semi (str_trim e)) with _ | rest
    · simp only [hslash]
      exact hshr2
    · simp only [hslash] at hdiv ⊢
      rcases hpp : parse_pos_int rest with _ | k2
      · simp only [hpp]
        exact hshr2
      · simp only [hpp] at hdiv ⊢
        rw [if_neg (by simpa using hdiv)]
        exact hshr2
  refine ⟨hmain, ?_, ?_⟩
  · intro h
    unfold pow2_int
    rw [if_pos ⟨le_of_lt hk, h⟩]
  · intro h
    unfold pow2_int
    rw [if_neg (fun hh => absurd hh.2 (not_lt.mpr h))]

/-- C5 witness: `n>>2` classifies as a divide with `b = pow2_int 2 = 4`. -/
theorem claim_C5_witness :
    analyze_expr_wrt_param "n>>2".toList "n".toList cls0 =
      { has_div := true, div_b := pow2_int 2, has_dec := false, dec_c := 0 } ∧
    ((2 : Int) < 30 → pow2_int 2 = 2 ^ (2 : Int).toNat) ∧
    (30 ≤ (2 : Int) → pow2_int 2 = 1) :=
  claim_C5 "n>>2".toList "n".toList 2 (by decide) (by decide) (by decide) (by decide)

/-- C5 counterexample: `n/3>>1` contains the parameter and a `>>` whose
right-hand side parses as the positive integer 1, so the original claim
demands `div_b = 2^1 = 2`; the classifier's `/` rule fires first and produces
`div_b = 3`. -/
theorem claim_C5_cex :
    has_sub "n".toList (strip_semi (str_trim "n/3>>1".toList)) = true ∧
    (after_shr (strip_semi (str_trim "n/3>>1".toList))).bind parse_pos_int = some 1 ∧
    analyze_expr_wrt_param "n/3>>1".toList "n".toList cls0 =
      { has_div := true, div_b := 3, has_dec := false, dec_c := 0 } ∧
    (3 : Int) ≠ 2 ^ (1 : Int).toNat := by
  exact ⟨by decide, by decide, by decide, by decide⟩

/-- C6 (corrected).  `maybe_record_alias` never stores a shift-kind
(`AL_SHR`) entry: a right-hand side such as `n >> 1` classifies through the
`>>` rule with `2^k` already computed, and is stored as a *divide* entry with
`k = 2^shift` (`alias_apply` writes only `AL_DIVIDE` or `AL_DEC`).  The
no-shift invariant is preserved across the whole walk.  The original claim's
"stored as ShiftByK, 2^k computed at lookup time" path is dead code. -/
theorem claim_C6 :
    (∀ (n : CNode) (p : String) (T : List AliasEntry),
      no_shr T = true → no_shr (maybe_record_alias n p T) = true) ∧
    (∀ (n : CNode) (fr : Frame),
      no_shr fr.aliases = true → no_shr (traverse_collect n fr).1.aliases = true) ∧
    (∀ (r : cls_result) (e : AliasEntry), r.has_div = true → r.div_b > 1 →
      alias_apply r e = { e with kind := .al_divide, k := r.div_b }) :=
  ⟨maybe_record_alias_noshr, walk_noshr, fun r e h1 h2 => by
    unfold alias_apply
    rw [if_pos ⟨h1, h2⟩]⟩

/-- C6 witness: recording the alias of `x = n>>1` keeps the table free of
shift entries. -/
theorem claim_C6_witness : no_shr (maybe_record_alias c6_node "n" []) = true :=
  claim_C6.1 c6_node "n" [] (by decide)

/-- C6 counterexample: for `x = n>>1` the table entry is
`{x, AL_DIVIDE, 2}` — kind Divide with `2^1` already computed — not a
ShiftByK entry as the original claim states. -/
theorem claim_C6_cex :
    maybe_record_alias c6_node "n" [] = [{ name := "x", kind := .al_divide, k := 2 }] ∧
    AliasKind.al_divide ≠ AliasKind.al_shr :=
  ⟨by decide, by decide⟩

/-- The `language` string recorded in `ast` (`json_string(language)` with the
default already applied by the caller). -/
def lang_name (language : Option String) : String :=
  match language with
  | some l => l
  | none => "unknown"

/-- C8 (confirmed).  For a missing language, a language other than `"c"`, or
empty code, the result records the supplied language (default `"unknown"`)
verbatim, `rootType` is `"unknown"`, all four summary arrays are empty and no
`summary.recurrence` field exists; the tree is never consulted. -/
theorem claim_C8 (language : Option String) (code : String) (root : CNode)
    (h : (∀ l, language = some l → ¬ l = "c") ∨ code = "") :
    jget (parse_code language code root).ast "language" =
      some (J.s (lang_name language)) ∧
    jget (parse_code language code root).ast "rootType" = some (J.s "unknown") ∧
    jget (parse_code language code root).summary "loops" = some (J.arr []) ∧
    summary_calls (parse_code language code root) = [] ∧
    summary_functions (parse_code language code root) = [] ∧
    summary_recs (parse_code language code root) = [] ∧
    jget (parse_code language code root).summary "recurrence" = none := by
  obtain ⟨hf, hc, hr, hconv⟩ := summary_other_fields language code root h
  have hast : (parse_code language code root).ast =
      [("language", J.s (lang_name language)), ("rootType", J.s "unknown")] := by
    rcases language with _ | lang
    · rfl
    · by_cases hcode : code = ""
      · unfold parse_code
        dsimp only
        rw [if_pos hcode]
        rfl
      · have hl : ¬ lang = "c" := (h.resolve_right hcode) lang rfl
        unfold parse_code
        dsimp only
        rw [if_neg hcode, if_neg hl]
        rfl
  have hsum := parse_summary_other language code root h
  refine ⟨by rw [hast]; rfl, by rw [hast]; rfl, by rw [hsum]; rfl, hc, hf, hr, hconv⟩

/-- C8 witness: language `"js"` with nonempty code takes the empty path. -/
theorem claim_C8_witness :
    jget (parse_code (some "js") "x" c1_tree).ast "language" = some (J.s "js") ∧
    jget (parse_code (some "js") "x" c1_tree).ast "rootType" = some (J.s "unknown") ∧
    jget (parse_code (some "js") "x" c1_tree).summary "loops" = some (J.arr []) ∧
    summary_calls (parse_code (some "js") "x" c1_tree) = [] ∧
    summary_functions (parse_code (some "js") "x" c1_tree) = [] ∧
    summary_recs (parse_code (some "js") "x" c1_tree) = [] ∧
    jget (parse_code (some "js") "x" c1_tree).summary "recurrence" = none :=
  claim_C8 (some "js") "x" c1_tree
    (Or.inl (by
      intro l hl
      cases hl
      decide))

/-- C1 (corrected).  The convenience field `summary.recurrence` is present iff
`summary.recurrences` has exactly one entry IN TOTAL and that entry's `model`
is `"divide"` with `b > 1`; the code tests the array length first, so a
divide entry accompanied by any other entry emits nothing (the original claim
asked only for exactly one *divide* entry).  When present, its `a`, `b`, `f`
fields are copied from that entry. -/
theorem claim_C1 (language : Option String) (code : String) (root : CNode) :
    ((jget (parse_code language code root).summary "recurrence").isSome = true ↔
      ∃ e, summary_recs (parse_code language code root) = [e] ∧ divide_entry e = true) ∧
    ∀ e o, summary_recs (parse_code language code root) = [e] →
      jget (parse_code language code root).summary "recurrence" = some (J.obj o) →
      jget o "a" = jget_j e "a" ∧ jget o "b" = jget_j e "b" ∧ jget o "f" = jget_j e "f" := by
  by_cases hpath : language = some "c" ∧ ¬ code = ""
  · obtain ⟨hl, hcode⟩ := hpath
    subst hl
    have hrec := recurrence_field_c code root hcode
    have hrecs := summary_recs_c code root hcode
    constructor
    · rw [hrec, hrecs]
      rcases hR : (traverse_collect root frame0).2.recs with _ | ⟨e1, _ | ⟨e2, rest2⟩⟩
      · simp
      · dsimp only
        by_cases hd : divide_entry e1 = true
        · rw [if_pos hd]
          exact iff_of_true rfl ⟨e1, rfl, hd⟩
        · rw [if_neg hd]
          refine iff_of_false (by simp) ?_
          rintro ⟨e', he', hd'⟩
          obtain ⟨rfl, -⟩ := List.cons.inj he'
          exact hd hd'
      · simp
    · intro e o he ho
      rw [hrecs] at he
      rw [he] at hrec
      dsimp only at hrec
      by_cases hd : divide_entry e = true
      · rw [if_pos hd] at hrec
        have hoo := hrec.symm.trans ho
        injection hoo with h2
        injection h2 with h3
        have hA : jget (jset_opt (jset_opt (jset_opt [] "a" (jget_j e "a")) "b" (jget_j e "b"))
            "f" (jget_j e "f")) "a" = jget_j e "a" := by
          rw [jget_jset_opt_ne _ _ _ _ (by decide), jget_jset_opt_ne _ _ _ _ (by decide)]
          exact jget_jset_opt_self _ _ _ rfl
        have hB : jget (jset_opt (jset_opt (jset_opt [] "a" (jget_j e "a")) "b" (jget_j e "b"))
            "f" (jget_j e "f")) "b" = jget_j e "b" := by
          rw [jget_jset_opt_ne _ _ _ _ (by decide)]
          refine jget_jset_opt_self _ _ _ ?_
          cases jget_j e "a" <;> simp [jset_opt, jset, jget]
        have hF : jget (jset_opt (jset_opt (jset_opt [] "a" (jget_j e "a")) "b" (jget_j e "b"))
            "f" (jget_j e "f")) "f" = jget_j e "f" := by
          refine jget_jset_opt_self _ _ _ ?_
          cases jget_j e "a" <;> cases jget_j e "b" <;> simp [jset_opt, jset, jget]
        rw [← h3]
        exact ⟨hA, hB, hF⟩
      · rw [if_neg hd] at hrec
        rw [hrec] at ho
        exact absurd ho (by simp)
  · have hsplit := path_split language code hpath
    obtain ⟨-, -, hr, hconv⟩ := summary_other_fields language code root hsplit
    constructor
    · rw [hconv, hr]
      simp
    · intro e o he ho
      rw [hr] at he
      simp at he

/-- C1 witness: the single divide entry of `conv_tree` produces the field and
its `a`, `b`, `f` are copied. -/
theorem claim_C1_witness :
    jget [("a", J.i 1), ("b", J.i 2), ("f", J.s "1")] "a" = jget_j entry_f "a" ∧
    jget [("a", J.i 1), ("b", J.i 2), ("f", J.s "1")] "b" = jget_j entry_f "b" ∧
    jget [("a", J.i 1), ("b", J.i 2), ("f", J.s "1")] "f" = jget_j entry_f "f" :=
  (claim_C1 (some "c") "x" conv_tree).2 entry_f [("a", J.i 1), ("b", J.i 2), ("f", J.s "1")]
    (by rw [parse_conv]; rfl) (by rw [parse_conv]; rfl)

/-- C1 counterexample: `c1_tree` yields two top-level entries of which exactly
one is a divide entry with `b > 1` — the original claim's condition holds —
yet no `summary.recurrence` field is emitted. -/
theorem claim_C1_cex :
    ((summary_recs (parse_code (some "c") "x" c1_tree)).filter divide_entry).length = 1 ∧
    (summary_recs (parse_code (some "c") "x" c1_tree)).length = 2 ∧
    jget (parse_code (some "c") "x" c1_tree).summary "recurrence" = none := by
  rw [parse_c1]
  exact ⟨rfl, rfl, rfl⟩

/-- C3 (confirmed).  Every emitted record `F` comes from a record-producing
definition `(nm, D)`, and when `F.recurrence` exists its `a` equals the
number of call sites lexically inside `D` whose extracted callee text equals
`nm`, counted unconditionally (arguments play no role in the count). -/
theorem claim_C3 (language : Option String) (code : String) (root : CNode) :
    ∀ F ∈ summary_functions (parse_code language code root),
      ∃ p ∈ good_defs root, F = record_of p ∧
        ∀ rc, jget_j F "recurrence" = some (J.obj rc) →
          jget rc "a" = some (J.i (self_site_count p.1 p.2)) := by
  intro F hF
  by_cases hpath : language = some "c" ∧ ¬ code = ""
  · obtain ⟨hl, hcode⟩ := hpath
    subst hl
    rw [summary_functions_c code root hcode, (walk_out root frame0).2.1] at hF
    obtain ⟨p, hp, hFp⟩ := List.mem_map.mp hF
    obtain ⟨nm, D⟩ := p
    rcases D with ⟨t, tx, ch⟩
    obtain ⟨hty, hnm, hnest⟩ := good_defs_spec root _ hp
    have hty2 : t = "function_definition" := hty
    refine ⟨(nm, .node t tx ch), hp, hFp.symm, ?_⟩
    intro rc hrc
    rw [← hFp] at hrc
    obtain ⟨i, q, hcs⟩ := choose_size_param_shape (CNode.node t tx ch)
      (enter_function (some nm))
    have hcur : (choose_size_param (CNode.node t tx ch)
        (enter_function (some nm))).current_fn = some nm := by
      rw [hcs]
      rfl
    obtain ⟨w1, w2, w3, w4⟩ :=
      walk_frame_list ch (choose_size_param (CNode.node t tx ch) (enter_function (some nm)))
        nm hnest hcur
    have ha2 : (final_frame nm (CNode.node t tx ch)).self_calls_a =
        (self_site_count_ne_list nm ch : Int) := by
      unfold final_frame
      dsimp only [CNode.children]
      rw [w2, hcs]
      dsimp only [enter_function]
      omega
    have hsaw : (final_frame nm (CNode.node t tx ch)).saw_recursive_call =
        decide (0 < self_site_count_ne_list nm ch) := by
      unfold final_frame
      dsimp only [CNode.children]
      rw [w3, hcs]
      dsimp only [enter_function]
      rw [Bool.false_or]
    obtain ⟨-, -, hrec⟩ := mk_fn_obj_fields nm (final_frame nm (CNode.node t tx ch))
    unfold record_of at hrc
    dsimp only [jget_j] at hrc
    rw [hrec] at hrc
    by_cases hsw : (final_frame nm (CNode.node t tx ch)).saw_recursive_call = true
    · rw [if_pos hsw] at hrc
      injection hrc with h2
      injection h2 with h3
      have hpos : 0 < self_site_count_ne_list nm ch := by
        rw [hsaw] at hsw
        exact of_decide_eq_true hsw
      have hne : nm ≠ "" := by
        intro hq
        rw [hq, count_ne_empty_list] at hpos
        exact Nat.lt_irrefl 0 hpos
      obtain ⟨sa, -⟩ := mk_rec_object_spec (final_frame nm (CNode.node t tx ch))
      rw [← h3, sa, ha2]
      have hcount : self_site_count nm (CNode.node t tx ch) = self_site_count_ne_list nm ch := by
        rw [self_site_count, if_neg (fun hh => by
          rw [hty2] at hh
          exact absurd hh.1 (by decide)), Nat.zero_add]
        exact count_ne_eq_list nm hne ch
      rw [hcount]
    · rw [if_neg hsw] at hrc
      exact absurd hrc (by simp)
  · have hsplit := path_split language code hpath
    rw [(summary_other_fields language code root hsplit).1] at hF
    simp at hF

/-- C3 witness: the record of `f` in `conv_tree` has `a = 1`, the number of
`f(...)` call sites in its body. -/
theorem claim_C3_witness :
    ∃ p ∈ good_defs conv_tree, record_f = record_of p ∧
      ∀ rc, jget_j record_f "recurrence" = some (J.obj rc) →
        jget rc "a" = some (J.i (self_site_count p.1 p.2)) :=
  claim_C3 (some "c") "x" conv_tree record_f
    (by rw [parse_conv]; exact List.mem_singleton.mpr rfl)

/-- C7 (corrected).  `summary.calls` is the pre-order list of ALL call sites
with a recoverable non-empty callee, including calls outside every
record-producing function (top-level initializers, unnamed or nested
definitions); each function record's `calls` lists the calls lexically inside
that definition.  The original "summary.calls = concatenation of the records'
calls" fails as soon as a call lies outside every record. -/
theorem claim_C7 (language : Option String) (code : String) (root : CNode) :
    (language = some "c" → ¬ code = "" →
      summary_calls (parse_code language code root) = all_calls root) ∧
    (∀ p ∈ good_defs root, record_calls (record_of p) = all_calls_list p.2.children) ∧
    ((∀ l, language = some l → ¬ l = "c") ∨ code = "" →
      summary_calls (parse_code language code root) = []) := by
  refine ⟨?_, ?_, ?_⟩
  · intro h1 h2
    subst h1
    rw [summary_calls_c code root h2]
    exact (walk_out root frame0).2.2.2
  · intro p hp
    obtain ⟨hty, hnm, hnest⟩ := good_defs_spec root p hp
    obtain ⟨i, q, hcs⟩ := choose_size_param_shape p.2 (enter_function (some p.1))
    have hcur : (choose_size_param p.2 (enter_function (some p.1))).current_fn = some p.1 := by
      rw [hcs]
      rfl
    obtain ⟨-, -, -, w4⟩ :=
      walk_frame_list p.2.children (choose_size_param p.2 (enter_function (some p.1))) p.1
        hnest hcur
    have hcfc : (final_frame p.1 p.2).current_fn_calls = all_calls_list p.2.children := by
      unfold final_frame
      rw [w4, hcs]
      dsimp only [enter_function]
      rw [List.nil_append]
    obtain ⟨-, hcalls, -⟩ := mk_fn_obj_fields p.1 (final_frame p.1 p.2)
    unfold record_calls record_of
    dsimp only [jget_j]
    simp only [hcalls]
    rw [filterMap_jstr, hcfc]
  · intro h
    exact (summary_other_fields language code root h).2.1

/-- C7 witness: at `c7_tree` the global calls list is the pre-order list of
all call sites. -/
theorem claim_C7_witness :
    summary_calls (parse_code (some "c") "x" c7_tree) = all_calls c7_tree :=
  (claim_C7 (some "c") "x" c7_tree).1 rfl (by decide)

/-- C7 counterexample: `c7_tree` has the top-level call `f()` in
`summary.calls` but no function record at all, so the concatenation of the
records' calls is empty and the original equality fails. -/
theorem claim_C7_cex :
    summary_calls (parse_code (some "c") "x" c7_tree) = ["f"] ∧
    summary_functions (parse_code (some "c") "x" c7_tree) = [] := by
  rw [parse_c7]
  exact ⟨rfl, rfl⟩

/-- C9 (corrected).  A `function_definition` node produces a record exactly
when its name is recovered AND it contains no nested function definition: the
records are `good_defs` in order.  An unnamed definition produces NO record
(leave_function returns early on a NULL name, contrary to the original
claim), and a nested definition nulls `current_fn` so the enclosing
definition also produces none. -/
theorem claim_C9 (language : Option String) (code : String) (root : CNode) :
    (language = some "c" → ¬ code = "" →
      summary_functions (parse_code language code root) = (good_defs root).map record_of) ∧
    ((∀ l, language = some l → ¬ l = "c") ∨ code = "" →
      summary_functions (parse_code language code root) = []) ∧
    ∀ p ∈ good_defs root, p.2.ty = "function_definition" ∧
      extract_function_name_from_definition p.2 = some p.1 ∧
      has_fn_def_list p.2.children = false := by
  refine ⟨?_, ?_, good_defs_spec root⟩
  · intro h1 h2
    subst h1
    rw [summary_functions_c code root h2]
    exact (walk_out root frame0).2.1
  · intro h
    exact (summary_other_fields language code root h).1

/-- C9 witness: the records of `c9_tree` are exactly its good definitions
(none). -/
theorem claim_C9_witness :
    summary_functions (parse_code (some "c") "x" c9_tree) = (good_defs c9_tree).map record_of :=
  (claim_C9 (some "c") "x" c9_tree).1 rfl (by decide)

/-- C9 counterexample: `c9_tree` contains two `function_definition` nodes (a
named one enclosing an unnamed one) yet `summary.functions` is empty —
against "exactly one record per function_definition node, including unnamed
ones". -/
theorem claim_C9_cex :
    count_fn_defs c9_tree = 2 ∧
    summary_functions (parse_code (some "c") "x" c9_tree) = [] := by
  refine ⟨by decide, ?_⟩
  rw [parse_c9]
  rfl

/-- C10 (confirmed).  Every entry of `summary.recurrences` is the top-level
entry synthesized for a record-producing recursive definition: it carries a
`function` field holding that function's name, the corresponding record (with
the same `name`) is in `summary.functions`, and that record's own
`recurrence` object has no `function` field. -/
theorem claim_C10 (language : Option String) (code : String) (root : CNode) :
    ∀ e ∈ summary_recs (parse_code language code root),
      ∃ p ∈ good_defs root,
        e = J.obj (mk_top_entry p.1 (final_frame p.1 p.2)) ∧
        jget_j e "function" = some (J.s p.1) ∧
        record_of p ∈ summary_functions (parse_code language code root) ∧
        jget_j (record_of p) "name" = some (J.s p.1) ∧
        ∀ rc, jget_j (record_of p) "recurrence" = some (J.obj rc) →
          jget rc "function" = none := by
  intro e he
  by_cases hpath : language = some "c" ∧ ¬ code = ""
  · obtain ⟨hl, hcode⟩ := hpath
    subst hl
    rw [summary_recs_c code root hcode, (walk_out root frame0).2.2.1] at he
    obtain ⟨p, hpf, hep⟩ := List.mem_map.mp he
    have hp : p ∈ good_defs root := List.mem_of_mem_filter hpf
    refine ⟨p, hp, hep.symm, ?_, ?_, ?_, ?_⟩
    · rw [← hep]
      dsimp only [jget_j]
      exact (mk_top_entry_fields p.1 (final_frame p.1 p.2)).1
    · rw [summary_functions_c code root hcode, (walk_out root frame0).2.1]
      exact List.mem_map_of_mem record_of hp
    · unfold record_of
      dsimp only [jget_j]
      exact (mk_fn_obj_fields p.1 (final_frame p.1 p.2)).1
    · intro rc hrc
      unfold record_of at hrc
      dsimp only [jget_j] at hrc
      rw [(mk_fn_obj_fields p.1 (final_frame p.1 p.2)).2.2] at hrc
      by_cases hsw : (final_frame p.1 p.2).saw_recursive_call = true
      · rw [if_pos hsw] at hrc
        injection hrc with h2
        injection h2 with h3
        rw [← h3]
        exact (mk_rec_object_spec (final_frame p.1 p.2)).2.2.2.2.2.2
      · rw [if_neg hsw] at hrc
        exact absurd hrc (by simp)
  · have hsplit := path_split language code hpath
    rw [(summary_other_fields language code root hsplit).2.2.1] at he
    simp at he

/-- C10 witness: the entry of `f` in `conv_tree` carries `function = "f"`,
matches a record named `"f"`, whose recurrence has no `function` field. -/
theorem claim_C10_witness :
    ∃ p ∈ good_defs conv_tree,
      entry_f = J.obj (mk_top_entry p.1 (final_frame p.1 p.2)) ∧
      jget_j entry_f "function" = some (J.s p.1) ∧
      record_of p ∈ summary_functions (parse_code (some "c") "x" conv_tree) ∧
      jget_j (record_of p) "name" = some (J.s p.1) ∧
      ∀ rc, jget_j (record_of p) "recurrence" = some (J.obj rc) →
        jget rc "function" = none :=
  claim_C10 (some "c") "x" conv_tree entry_f
    (by rw [parse_conv]; exact List.mem_singleton.mpr rfl)
